import Mathlib

/-!
Verification of the tess review-export tool (vigetlabs/tess).

Shallow embedding of the Go sources in `src/cmd/tess.go`,
`src/unnamed/part_000` and `src/internal/`.  Go strings are modelled as
lists of characters (Go ranges over runes in every loop modelled here);
Go `nil`-able pointers become `Option`; Go maps that are only ever read
back pointwise become Lean functions.
-/

/-- Go string, viewed as its sequence of runes. -/
abbrev Str := List Char

/-- Model of Go `unicode.IsSpace`: the Unicode White_Space code points. -/
def goIsSpace (c : Char) : Bool :=
  let n := c.toNat
  (9 ≤ n && n ≤ 13) || n == 32 || n == 133 || n == 160 || n == 0x1680 ||
  (0x2000 ≤ n && n ≤ 0x200A) || n == 0x2028 || n == 0x2029 ||
  n == 0x202F || n == 0x205F || n == 0x3000

/-- Model of Go `strings.TrimLeft(s, whitespace)` as used inside
`strings.TrimSpace`: drop leading White_Space runes. -/
def goTrimLeftSpace (s : Str) : Str := s.dropWhile goIsSpace

/-- Drop trailing White_Space runes (right half of Go `strings.TrimSpace`). -/
def goTrimRightSpace (s : Str) : Str := (s.reverse.dropWhile goIsSpace).reverse

/-- Model of Go `strings.TrimSpace`. -/
def goTrimSpace (s : Str) : Str := goTrimRightSpace (goTrimLeftSpace s)

/-- Test used by the sanitizer for a blank line: Go
`strings.TrimSpace(l) == ""`. -/
def blankLine (l : Str) : Bool := (goTrimSpace l).isEmpty

/-- Model of Go `strings.TrimRight(l, " \t")`: drop trailing spaces and tabs. -/
def goTrimRightST (l : Str) : Str :=
  (l.reverse.dropWhile (fun c => c == ' ' || c == '\t')).reverse

/-- Model of Go `strings.Split(s, "\n")` (the separator used in the
sanitizer and the renderer is always the single rune newline). -/
def splitNL : Str → List Str
  | [] => [[]]
  | c :: rest =>
    if c = '\n' then [] :: splitNL rest
    else
      match splitNL rest with
      | [] => [[c]]
      | l :: ls => (c :: l) :: ls

/-- Model of Go `strings.Join(ls, "\n")`. -/
def joinNL : List Str → Str
  | [] => []
  | [l] => l
  | l :: ls => l ++ '\n' :: joinNL ls

/-- The blank-line-collapsing loop of `sanitizeText` in `src/cmd/tess.go`
(lines 590-600): right-trim each line, then skip a blank line whenever the
previously kept line was blank. -/
def collapseBlanks (prevBlank : Bool) : List Str → List Str
  | [] => []
  | line :: rest =>
    let l := goTrimRightST line
    let isBlank := blankLine l
    if isBlank && prevBlank then collapseBlanks prevBlank rest
    else l :: collapseBlanks isBlank rest

/-- The tag-stripping state machine shared by both `sanitizeText` copies:
`<` enters tag state (and is dropped), `>` leaves it (and is dropped even
outside a tag, since the Go `case '>'` arm never writes), every other rune
is kept iff not inside a tag. -/
def stripTags (inTag : Bool) : Str → Str
  | [] => []
  | c :: rest =>
    if c = '<' then stripTags true rest
    else if c = '>' then stripTags false rest
    else if inTag then stripTags inTag rest
    else c :: stripTags inTag rest

/-- Fuelled worker for `replaceAll`; the fuel only serves to make the
recursion structural, and `s.length` fuel always suffices since every step
consumes at least one rune of `s`. -/
def replaceAllF : Nat → Str → Str → Str → Str
  | 0, s, _, _ => s
  | _ + 1, s, [], _ => s
  | _ + 1, [], _ :: _, _ => []
  | n + 1, c :: cs, p :: ps, rep =>
    if (p :: ps).isPrefixOf (c :: cs) then
      rep ++ replaceAllF n (cs.drop ps.length) (p :: ps) rep
    else
      c :: replaceAllF n cs (p :: ps) rep

/-- Model of Go `strings.ReplaceAll(s, pat, rep)` for a non-empty pattern
(every pattern used by the sanitizer is non-empty; the empty-pattern case,
which Go treats specially, is mapped to the identity). -/
def replaceAll (s pat rep : Str) : Str := replaceAllF s.length s pat rep

/-- Decimal value of a digit string. -/
def decDigits : List Char → Nat
  | [] => 0
  | ds => ds.foldl (fun a c => a * 10 + (c.toNat - 48)) 0

/-- Modelled from the Go standard library: one entity lookup step of
`html.UnescapeString`, restricted to the four basic named entities and
decimal numeric character references (the full Go table also knows the
other HTML5 named entities and hexadecimal references, none of which any
claim depends on).  Given the text after a `&`, returns the decoded rune
and the number of runes consumed. -/
def parseEntity (t : Str) : Option (Char × Nat) :=
  if ("amp;".data).isPrefixOf t then some ('&', 4)
  else if ("lt;".data).isPrefixOf t then some ('<', 3)
  else if ("gt;".data).isPrefixOf t then some ('>', 3)
  else if ("quot;".data).isPrefixOf t then some ('"', 5)
  else
    match t with
    | '#' :: u =>
      let ds := u.takeWhile (fun c => '0' ≤ c && c ≤ '9')
      if ds.isEmpty then none
      else
        match u.drop ds.length with
        | ';' :: _ => some (Char.ofNat (decDigits ds), 1 + ds.length + 1)
        | _ => none
    | _ => none

/-- Fuelled worker for `htmlUnescape`; `s.length` fuel always suffices. -/
def htmlUnescapeF : Nat → Str → Str
  | 0, s => s
  | _ + 1, [] => []
  | n + 1, c :: rest =>
    if c = '&' then
      match parseEntity rest with
      | some (ch, k) => ch :: htmlUnescapeF n (rest.drop k)
      | none => c :: htmlUnescapeF n rest
    else c :: htmlUnescapeF n rest

/-- Modelled from the Go standard library: `html.UnescapeString`, with the
entity table restricted as in `parseEntity`.  Text that does not start an
entity is copied through unchanged. -/
def htmlUnescape (s : Str) : Str := htmlUnescapeF s.length s

/-- The fixed break/paragraph-tag rewriting table of `sanitizeText`
(identical in both copies): `<br>`, `<br/>`, `<br />` and `</p>` become a
newline, `<p>` is deleted, applied in that order. -/
def sanitizeRepls (s : Str) : Str :=
  replaceAll
    (replaceAll
      (replaceAll
        (replaceAll
          (replaceAll s "<br>".data "\n".data)
          "<br/>".data "\n".data)
        "<br />".data "\n".data)
      "</p>".data "\n".data)
    "<p>".data "".data

/-- The part of `sanitizeText` shared verbatim by `src/cmd/tess.go` and
`src/unnamed/part_000`: entity decoding, tag rewriting, tag stripping. -/
def sanitizeCore (s : Str) : Str :=
  stripTags false (sanitizeRepls (htmlUnescape s))

/-- Line pass of `sanitizeText` in `src/cmd/tess.go` (lines 589-601):
split, right-trim each line, collapse blank-line runs, join, trim. -/
def normalizePass (s : Str) : Str :=
  goTrimSpace (joinNL (collapseBlanks false (splitNL s)))

/-- Model of `sanitizeText` from `src/cmd/tess.go` (lines 564-602). -/
def sanitizeText (s : Str) : Str :=
  if s = [] then s else normalizePass (sanitizeCore s)

/-- Line pass of the `sanitizeText` copy in `src/unnamed/part_000`
(lines 432-437): split, right-trim each line, join, trim — this copy does
not collapse blank lines. -/
def oldLinePass (s : Str) : Str :=
  goTrimSpace (joinNL ((splitNL s).map goTrimRightST))

/-- Model of the `sanitizeText` copy in `src/unnamed/part_000`
(lines 402-438). -/
def sanitizeText0 (s : Str) : Str :=
  if s = [] then s else oldLinePass (sanitizeCore s)

/-- Model of Go `strings.ToLower` for the ASCII range.  (Go's version also
lowercases non-ASCII letters; every comparison in the sources is against a
pure-ASCII constant and every non-ASCII rune is dropped by the slug filter,
so the ASCII model is observationally equivalent there.) -/
def goToLower (s : Str) : Str :=
  s.map (fun c => if 'A' ≤ c && c ≤ 'Z' then Char.ofNat (c.toNat + 32) else c)

/-- Modelled from the spec (§3 Data Model): the optional response payload of
a review record — the declaring Go file is not under `src/`; the fields and
their optionality are exactly those consumed by `buildMarkdown`.  Go's
`float64` rating is modelled as a rational: the sources only test its
presence and format it to two decimals. -/
structure ReviewResponse where
  comment : Option Str
  choices : List Str
  rating : Option Rat
  ratingString : Option Str
deriving DecidableEq

/-- Modelled from the spec (§3 Data Model): a review record, with the
nested `Question.ID` and `Reviewer.ID` references flattened to the two
identifier strings `buildMarkdown` reads. -/
structure Review where
  reviewType : Str
  questionId : Str
  reviewerId : Str
  response : Option ReviewResponse
deriving DecidableEq

/-- Modelled from the spec (§3 Data Model): a question resolved by ID. -/
structure Question where
  id : Str
  body : Str
deriving DecidableEq

/-- User as consumed by the renderer (`src/internal/api.go` declares more
fields; only `Name` is read after a reviewer lookup). -/
structure ReviewUser where
  id : Str
  name : Str
deriving DecidableEq

/-- The `review_type` test of the classifier loop (tess.go:440):
`strings.ToLower(r.ReviewType) == "self"`. -/
def isSelfReview (r : Review) : Bool := goToLower r.reviewType == "self".data

/-- The peer content test of tess.go:451. -/
def hasContent (resp : ReviewResponse) : Bool :=
  (match resp.comment with
   | some c => !(goTrimSpace c).isEmpty
   | none => false) ||
  !resp.choices.isEmpty || resp.ratingString.isSome || resp.rating.isSome

/-- Result of the classifier loop of `buildMarkdown` (tess.go:434-461).
The two Go maps are modelled as functions since they are only ever indexed
pointwise (iteration is always over the recorded order lists). -/
structure Classified where
  peerByQ : Str → List Review
  selfByQ : Str → List Review
  qOrderPeer : List Str
  qOrderSelf : List Str
  seenPeer : Str → Bool
  seenSelf : Str → Bool

/-- Classifier state before the loop runs. -/
def classifyInit : Classified :=
  ⟨fun _ => [], fun _ => [], [], [], fun _ => false, fun _ => false⟩

/-- One iteration of the classifier loop body (tess.go:438-461). -/
def classifyStep (st : Classified) (r : Review) : Classified :=
  let qid := r.questionId
  if isSelfReview r then
    { st with
      selfByQ := fun q => if q = qid then st.selfByQ q ++ [r] else st.selfByQ q
      qOrderSelf := if st.seenSelf qid then st.qOrderSelf else st.qOrderSelf ++ [qid]
      seenSelf := fun q => if q = qid then true else st.seenSelf q }
  else
    match r.response with
    | none => st
    | some resp =>
      if hasContent resp then
        { st with
          peerByQ := fun q => if q = qid then st.peerByQ q ++ [r] else st.peerByQ q
          qOrderPeer := if st.seenPeer qid then st.qOrderPeer else st.qOrderPeer ++ [qid]
          seenPeer := fun q => if q = qid then true else st.seenPeer q }
      else st

/-- The classifier loop, threading the state from left to right through the
fetched review list. -/
def classifyAux : Classified → List Review → Classified
  | st, [] => st
  | st, r :: rest => classifyAux (classifyStep st r) rest

/-- The record classifier of `buildMarkdown` (tess.go:434-461). -/
def classify (reviews : List Review) : Classified :=
  classifyAux classifyInit reviews

/-- Character loop of the `mask` closure (tess.go:424-431). -/
def maskRun : Str → Str
  | [] => []
  | c :: cs => (if goIsSpace c then c else '▒') :: maskRun cs

/-- The `mask` closure of `buildMarkdown` (tess.go:420-433): identity when
`censor` is false, otherwise replace every non-whitespace rune with the
placeholder glyph. -/
def mask (censor : Bool) (s : Str) : Str :=
  if !censor then s else maskRun s

/-- Model of Go `strings.Join(ls, sep)`. -/
def joinSep (sep : Str) : List Str → Str
  | [] => []
  | [l] => l
  | l :: ls => l ++ sep ++ joinSep sep ls

/-- Concatenation of the blocks emitted by one rendering loop. -/
def concatAll : List Str → Str
  | [] => []
  | l :: ls => l ++ concatAll ls

/-- Modelled from the Go `fmt.Sprintf` verb `%.2f` (tess.go:485) over the
rational rating model: two decimal digits, rounding half up on the absolute
value (Go rounds ties to even; the difference is only observable at exact
half-cent ties, which no claim exercises). -/
def fmtRating2 (q : Rat) : Str :=
  let n : Nat := (⌊|q| * 100 + (1 : Rat) / 2⌋).toNat
  (if q < 0 then ['-'] else []) ++ (toString (n / 100)).data ++
    '.' :: (if n % 100 < 10 then '0' :: (toString (n % 100)).data
            else (toString (n % 100)).data)

/-- Peer-section question heading text (tess.go:467-471): resolved body is
entity-unescaped, trimmed, made single-line; lookup failure falls back to
the generic placeholder heading. -/
def peerQuestionText (qLookup : Str → Option Question) (qid : Str) : Str :=
  match qLookup qid with
  | some q => replaceAll (htmlUnescape (goTrimSpace q.body)) "\n".data " ".data
  | none => "Question".data

/-- Self-section question heading text (tess.go:511-515): this section runs
the full sanitizer on the body instead of a bare unescape. -/
def selfQuestionText (qLookup : Str → Option Question) (qid : Str) : Str :=
  match qLookup qid with
  | some q => replaceAll (sanitizeText (goTrimSpace q.body)) "\n".data " ".data
  | none => "Question".data

/-- Comment-present-and-non-blank test shared by both quote computations. -/
def commentNonEmpty (resp : ReviewResponse) : Bool :=
  match resp.comment with
  | some c => !(goTrimSpace c).isEmpty
  | none => false

/-- Quote text computed from a present response (tess.go:492-497 and
519-523): the sanitized trimmed comment, else the sanitized comma-joined
choices, else empty. -/
def rawQuote (resp : ReviewResponse) : Str :=
  if commentNonEmpty resp then sanitizeText (goTrimSpace (resp.comment.getD []))
  else if !resp.choices.isEmpty then sanitizeText (joinSep ", ".data resp.choices)
  else []

/-- Placeholder substitution (tess.go:498-500 and 524-526). -/
def quoteOrPlaceholder (q : Str) : Str :=
  if (goTrimSpace q).isEmpty then "(no comment)".data else q

/-- Block-quote emission (tess.go:501-503 and 527-529): the (possibly
masked) quote is split on newlines and every line is emitted prefixed by
a quote marker. -/
def quoteBlock (censor : Bool) (quote : Str) : Str :=
  concatAll ((splitNL (mask censor quote)).map
    (fun line => "> ".data ++ line ++ "\n".data))

/-- Rendering of one surviving peer record (tess.go:473-505).  The record's
response is present for every record admitted by the classifier; the
default used for the impossible absent case is an empty response. -/
def renderPeerReview (uLookup : Str → Option ReviewUser) (censor : Bool)
    (r : Review) : Str :=
  let resp := r.response.getD ⟨none, [], none, none⟩
  let name :=
    if r.reviewerId ≠ [] then
      match uLookup r.reviewerId with
      | some u => if !(goTrimSpace u.name).isEmpty then u.name else "Unknown".data
      | none => "Unknown".data
    else "Unknown".data
  let score :=
    match resp.ratingString with
    | some rs =>
      if rs ≠ [] then rs
      else match resp.rating with
           | some x => fmtRating2 x
           | none => []
    | none =>
      match resp.rating with
      | some x => fmtRating2 x
      | none => []
  let nameLine :=
    if score ≠ [] then
      mask censor name ++ " (score: ".data ++ mask censor score ++ "):\n\n".data
    else mask censor name ++ ":\n\n".data
  nameLine ++ quoteBlock censor (quoteOrPlaceholder (rawQuote resp)) ++ "\n".data

/-- Rendering of one self record (tess.go:517-531): no attribution line,
and the response may be absent (quote falls back to the placeholder). -/
def renderSelfReview (censor : Bool) (r : Review) : Str :=
  let quote :=
    match r.response with
    | some resp => rawQuote resp
    | none => []
  quoteBlock censor (quoteOrPlaceholder quote) ++ "\n".data

/-- The Peer Feedback section loop (tess.go:466-506). -/
def renderPeerSection (qLookup : Str → Option Question)
    (uLookup : Str → Option ReviewUser) (censor : Bool) (cls : Classified) : Str :=
  concatAll (cls.qOrderPeer.map (fun qid =>
    "### ".data ++ peerQuestionText qLookup qid ++ "\n\n".data ++
    concatAll ((cls.peerByQ qid).map (renderPeerReview uLookup censor))))

/-- The Self Review section loop (tess.go:510-532). -/
def renderSelfSection (qLookup : Str → Option Question) (censor : Bool)
    (cls : Classified) : Str :=
  concatAll (cls.qOrderSelf.map (fun qid =>
    "### ".data ++ selfQuestionText qLookup qid ++ "\n\n".data ++
    concatAll ((cls.selfByQ qid).map (renderSelfReview censor))))

/-- Model of `buildMarkdown` (tess.go:419-534).  The two by-ID lookups of
the API client are passed in as functions returning `none` exactly when the
Go call returns a non-nil error. -/
def buildMarkdown (qLookup : Str → Option Question)
    (uLookup : Str → Option ReviewUser) (userName cycleName : Str)
    (reviews : List Review) (censor : Bool) : Str :=
  let cls := classify reviews
  "# ".data ++ userName ++ " (".data ++ cycleName ++ ")\n\n".data ++
  "## Peer Feedback\n\n".data ++
  renderPeerSection qLookup uLookup censor cls ++
  "---\n\n".data ++
  "## Self Review\n\n".data ++
  renderSelfSection qLookup censor cls

/-- The rune classification of the slug mapper (tess.go:539-547), with Go's
`-1` drop result modelled as `none`. -/
def slugRepl (r : Char) : Option Char :=
  if ('a' ≤ r && r ≤ 'z') || ('0' ≤ r && r ≤ '9') then some r
  else if r == ' ' || r == '-' || r == '/' || r == '\\' then some '_'
  else none

/-- Model of Go `strings.Trim(s, "_")`. -/
def goTrimUnderscore (s : Str) : Str :=
  ((s.dropWhile (· == '_')).reverse.dropWhile (· == '_')).reverse

/-- The `toSlug` closure of `outputFileName` (tess.go:537-549):
lowercase, map runes through `slugRepl` (dropping on `none`), trim
leading/trailing underscores. -/
def toSlug (s : Str) : Str :=
  goTrimUnderscore ((goToLower s).filterMap slugRepl)

/-- Word accumulator for `goFields`. -/
def goFieldsAux (cur : Str) : Str → List Str
  | [] => if cur.isEmpty then [] else [cur.reverse]
  | c :: rest =>
    if goIsSpace c then
      if cur.isEmpty then goFieldsAux [] rest
      else cur.reverse :: goFieldsAux [] rest
    else goFieldsAux (c :: cur) rest

/-- Model of Go `strings.Fields`: split around runs of whitespace, with no
empty fields. -/
def goFields (s : Str) : List Str := goFieldsAux [] s

/-- Model of `outputFileName` (tess.go:536-562). -/
def outputFileName (userName cycleName : Str) : Str :=
  let parts := goFields userName
  let first0 := match parts with | [] => [] | p :: _ => p
  let last := if parts.length > 1 then (parts.getLast?).getD [] else []
  let first := if first0 = [] then "user".data else first0
  toSlug first ++ "_".data ++ toSlug last ++ "_".data ++
    toSlug cycleName ++ ".md".data

/-- Modelled from the spec (§3 Data Model): one reviewee entry of a cycle's
reviewee list.  (`src/internal/api.go` declares a `Reviewee` without the
reviews link that `tess.go:181` reads, so the field set follows the spec's
reviewee_list entry.) -/
structure RevieweeRec where
  id : Str
  userId : Str
  reviewsUrl : Str
deriving DecidableEq

/-- A review cycle as consumed by the stage-2 filter, with the reviewee
list reference flattened to its URL. -/
structure ReviewCycle where
  id : Str
  name : Str
  revieweesUrl : Str
deriving DecidableEq

/-- The `cycleEntry` record built by the stage-2 filter (tess.go:167-170). -/
structure CycleEntry where
  name : Str
  reviewsUrl : Str
  cycle : ReviewCycle
deriving DecidableEq

/-- The stage-2 cycle filtering loop (tess.go:172-187): fetch each cycle's
reviewee list — on error skip the cycle; otherwise keep the cycle iff some
reviewee matches the selected user, recording the first match's reviews
URL.  The reviewee fetch is passed in as a function returning `Except`. -/
def filterCycles (fetch : Str → Except Str (List RevieweeRec))
    (selectedUserID : Str) : List ReviewCycle → List CycleEntry
  | [] => []
  | cy :: rest =>
    match fetch cy.revieweesUrl with
    | .error _ => filterCycles fetch selectedUserID rest
    | .ok reviewees =>
      match reviewees.find? (fun rv => rv.userId == selectedUserID) with
      | some rv => ⟨cy.name, rv.reviewsUrl, cy⟩ :: filterCycles fetch selectedUserID rest
      | none => filterCycles fetch selectedUserID rest

/-- The whole stage-2 fetch closure (tess.go:172-187): it always returns a
nil error — per-cycle fetch failures are absorbed by the loop. -/
def filterCyclesStage (fetch : Str → Except Str (List RevieweeRec))
    (selectedUserID : Str) (cycles : List ReviewCycle) :
    Except Str (List CycleEntry) :=
  .ok (filterCycles fetch selectedUserID cycles)

/-- Whether every rune of a line is whitespace (the sanitizer's blank-line
notion, by `blankLine_eq_allSpace` below). -/
def allSpace (l : Str) : Bool := l.all goIsSpace

/-- No two adjacent lines are blank. -/
def noTwoBlank : List Str → Bool
  | [] => true
  | [_] => true
  | a :: b :: rest => !(blankLine a && blankLine b) && noTwoBlank (b :: rest)

/-- The head line, if any, is not blank. -/
def headNotBlank : List Str → Bool
  | [] => true
  | a :: _ => !blankLine a

/-- Effect of `goTrimLeftSpace` on a line decomposition: leading all-space
lines are deleted (together with their newline) and the first surviving
line loses its leading whitespace. -/
def dropBlankLeft : List Str → List Str
  | [] => []
  | [l] => [goTrimLeftSpace l]
  | l :: ls => if allSpace l then dropBlankLeft ls else goTrimLeftSpace l :: ls

/-- Effect of `goTrimRightSpace` on a line decomposition: trailing all-space
lines are deleted and the last surviving line loses its trailing
whitespace. -/
def dropBlankRight : List Str → List Str
  | [] => []
  | [l] => [goTrimRightSpace l]
  | l :: ls => if ls.all allSpace then [goTrimRightSpace l] else l :: dropBlankRight ls

/-- Specification-side order of first occurrences: keep each identifier the
first time it appears, deleting its later duplicates. -/
def firstOccurrences : List Str → List Str
  | [] => []
  | q :: rest => q :: firstOccurrences (rest.filter (fun x => x != q))
  termination_by l => l.length
  decreasing_by
    simp only [List.length_cons]
    exact Nat.lt_succ_of_le (List.length_filter_le _ _)

/-- New identifiers first seen while scanning a stream, relative to a set
of already-seen identifiers (used to characterise the classifier's order
lists). -/
def dedupNewF (seen : Str → Bool) : List Str → List Str
  | [] => []
  | q :: rest =>
    if seen q then dedupNewF seen rest
    else q :: dedupNewF (fun x => if x = q then true else seen x) rest

/-- The content filter as applied to a non-self record by the classifier
loop (tess.go:448-454): records with an absent response are dropped,
otherwise `hasContent` decides. -/
def peerKept (r : Review) : Bool :=
  match r.response with
  | none => false
  | some resp => hasContent resp

/-- Specification-side reading of the content filter (spec §4.2): keep iff
the response is present and at least one of trimmed-comment-non-empty,
non-empty choices, numeric rating present, rating label present holds. -/
def specKeep (r : Review) : Prop :=
  ∃ resp, r.response = some resp ∧
    ((∃ c, resp.comment = some c ∧ goTrimSpace c ≠ []) ∨
     resp.choices ≠ [] ∨ resp.rating.isSome = true ∨
     resp.ratingString.isSome = true)

/-- Specification-side per-rune slug step (spec §4.6): keep ASCII letters
and digits, map space, hyphen, forward slash and backslash to underscore,
drop every other rune. -/
def specSlugChar (r : Char) : Str :=
  if ('a' ≤ r && r ≤ 'z') || ('0' ≤ r && r ≤ '9') then [r]
  else if r == ' ' || r == '-' || r == '/' || r == '\\' then ['_']
  else []

/-- Concatenated per-rune slug images. -/
def specSlugCore : Str → Str
  | [] => []
  | c :: cs => specSlugChar c ++ specSlugCore cs

/-- Specification-side slug (spec §4.6): lowercase, per-rune mapping, trim
leading/trailing underscores. -/
def specSlug (s : Str) : Str :=
  goTrimUnderscore (specSlugCore (goToLower s))

/-- Specification-side filename derivation (spec §4.6): tokenize the
subject name on whitespace, take first/last token with the documented
fallbacks, slugify the three parts and join them. -/
def specFileName (userName cycleName : Str) : Str :=
  let toks := goFields userName
  let first := match toks with | [] => "user".data | t :: _ => t
  let last := if toks.length < 2 then [] else (toks.getLast?).getD []
  specSlug first ++ "_".data ++ specSlug last ++ "_".data ++
    specSlug cycleName ++ ".md".data

/-- Specification-side eligibility of one cycle (spec §4.7, §8): a cycle
whose reviewee fetch errors is ineligible; otherwise it is eligible iff
some reviewee matches the subject, yielding the entry the picker offers. -/
def eligibleEntry (fetch : Str → Except Str (List RevieweeRec))
    (selectedUserID : Str) (cy : ReviewCycle) : Option CycleEntry :=
  match fetch cy.revieweesUrl with
  | .error _ => none
  | .ok reviewees =>
    (reviewees.find? (fun rv => rv.userId == selectedUserID)).map
      (fun rv => ⟨cy.name, rv.reviewsUrl, cy⟩)

/-- Per-rune masking step (spec §4.4 wording). -/
def maskChar (c : Char) : Char := if goIsSpace c then c else '▒'

/-- Sample self-review record carrying a comment, used in concrete
instances of the classifier claims. -/
def sampleSelfQ (q : String) : Review :=
  ⟨"self".data, q.data, "u".data, some ⟨some "x".data, [], none, none⟩⟩

/-- Self record with mixed-case review type and an absent response. -/
def sampleSelfAbsent : Review := ⟨"Self".data, "Q1".data, [], none⟩

/-- Self record whose response holds only a whitespace comment. -/
def sampleSelfWS : Review :=
  ⟨"self".data, "Q2".data, [], some ⟨some "  ".data, [], none, none⟩⟩

/-- Peer record whose response is present but empty of content (spec §8). -/
def samplePeerEmpty : Review :=
  ⟨"peer".data, "Q1".data, "rev1".data, some ⟨some "  ".data, [], none, none⟩⟩

/-- Peer record kept through its choices sequence (spec §8). -/
def samplePeerChoices : Review :=
  ⟨"peer".data, "Q1".data, "rev1".data,
    some ⟨none, ["Strongly agree".data], none, none⟩⟩

/-- Peer record carrying only a rating label, so its computed quote is
empty and the placeholder path is taken. -/
def samplePeerLabel : Review :=
  ⟨"peer".data, "Q1".data, [], some ⟨some "  ".data, [], none, some "Agree".data⟩⟩

/-- Three sample cycles for the stage-2 filtering instance. -/
def sampleCycleA : ReviewCycle := ⟨"ca".data, "A".data, "urlA".data⟩

/-- Second sample cycle. -/
def sampleCycleB : ReviewCycle := ⟨"cb".data, "B".data, "urlB".data⟩

/-- Third sample cycle. -/
def sampleCycleC : ReviewCycle := ⟨"cc".data, "C".data, "urlC".data⟩

/-- Sample reviewee fetch: cycle A errors, cycle B has no matching
reviewee, cycle C matches user u1. -/
def sampleFetch (url : Str) : Except Str (List RevieweeRec) :=
  if url = "urlA".data then Except.error "boom".data
  else if url = "urlB".data then Except.ok [⟨"rv1".data, "other".data, "rb".data⟩]
  else Except.ok [⟨"rv2".data, "u1".data, "rc".data⟩]

example : sanitizeText "a<br>b</p>c<p>d".data = "a\nb\ncd".data := by decide

theorem dropWhile_idem (p : Char → Bool) (l : Str) :
    List.dropWhile p (List.dropWhile p l) = List.dropWhile p l := by
  induction l with
  | nil => rfl
  | cons c t ih =>
    by_cases h : p c
    · simp only [List.dropWhile_cons, h, if_true]
      exact ih
    · simp [List.dropWhile_cons, h]

theorem dropWhile_head_not (p : Char → Bool) (l : Str) (c : Char) (t : Str)
    (h : List.dropWhile p l = c :: t) : p c = false := by
  induction l with
  | nil => simp at h
  | cons a l ih =>
    rw [List.dropWhile_cons] at h
    by_cases ha : p a
    · rw [if_pos ha] at h
      exact ih h
    · rw [if_neg ha] at h
      cases h
      simpa using ha

theorem mem_dropWhile (p : Char → Bool) (l : Str) (c : Char)
    (h : c ∈ List.dropWhile p l) : c ∈ l :=
  List.Sublist.subset (List.dropWhile_sublist _) h

theorem mem_goTrimRightST (l : Str) (c : Char) (h : c ∈ goTrimRightST l) :
    c ∈ l := by
  unfold goTrimRightST at h
  rw [List.mem_reverse] at h
  have := mem_dropWhile _ _ _ h
  rwa [List.mem_reverse] at this

theorem mem_goTrimSpace (l : Str) (c : Char) (h : c ∈ goTrimSpace l) :
    c ∈ l := by
  unfold goTrimSpace goTrimRightSpace goTrimLeftSpace at h
  rw [List.mem_reverse] at h
  have h1 := mem_dropWhile _ _ _ h
  rw [List.mem_reverse] at h1
  exact mem_dropWhile _ _ _ h1

theorem splitNL_ne_nil (s : Str) : splitNL s ≠ [] := by
  cases s with
  | nil => simp [splitNL]
  | cons c rest =>
    by_cases h : c = '\n'
    · simp [splitNL, h]
    · simp only [splitNL, if_neg h]
      cases splitNL rest <;> simp

theorem mem_splitNL_no_nl (s : Str) (l : Str) (hl : l ∈ splitNL s) :
    '\n' ∉ l := by
  induction s generalizing l with
  | nil =>
    simp [splitNL] at hl
    simp [hl]
  | cons c rest ih =>
    by_cases h : c = '\n'
    · simp only [splitNL, if_pos h, List.mem_cons] at hl
      rcases hl with rfl | hl
      · simp
      · exact ih l hl
    · simp only [splitNL, if_neg h] at hl
      cases heq : splitNL rest with
      | nil => exact absurd heq (splitNL_ne_nil rest)
      | cons a as =>
        rw [heq, List.mem_cons] at hl
        rcases hl with rfl | hl
        · intro hmem
          rcases List.mem_cons.mp hmem with h1 | h1
          · exact h h1.symm
          · exact ih a (by rw [heq]; exact List.mem_cons_self a as) h1
        · exact ih l (by rw [heq]; exact List.mem_cons_of_mem a hl)

theorem mem_of_mem_splitNL (s : Str) (l : Str) (c : Char)
    (hl : l ∈ splitNL s) (hc : c ∈ l) : c ∈ s := by
  induction s generalizing l with
  | nil =>
    simp [splitNL] at hl
    subst hl
    simp at hc
  | cons a rest ih =>
    by_cases h : a = '\n'
    · simp only [splitNL, if_pos h, List.mem_cons] at hl
      rcases hl with rfl | hl
      · simp at hc
      · exact List.mem_cons_of_mem a (ih l hl hc)
    · simp only [splitNL, if_neg h] at hl
      cases heq : splitNL rest with
      | nil => exact absurd heq (splitNL_ne_nil rest)
      | cons x xs =>
        rw [heq, List.mem_cons] at hl
        rcases hl with rfl | hl
        · rcases List.mem_cons.mp hc with rfl | hc1
          · exact List.mem_cons_self _ _
          · exact List.mem_cons_of_mem a
              (ih x (by rw [heq]; exact List.mem_cons_self x xs) hc1)
        · exact List.mem_cons_of_mem a
            (ih l (by rw [heq]; exact List.mem_cons_of_mem x hl) hc)

theorem joinNL_splitNL (s : Str) : joinNL (splitNL s) = s := by
  induction s with
  | nil => rfl
  | cons c rest ih =>
    by_cases h : c = '\n'
    · subst h
      simp only [splitNL, if_pos rfl]
      cases heq : splitNL rest with
      | nil => exact absurd heq (splitNL_ne_nil rest)
      | cons a as =>
        show joinNL ([] :: a :: as) = '\n' :: rest
        show [] ++ '\n' :: joinNL (a :: as) = '\n' :: rest
        rw [← heq, ih]
        rfl
    · simp only [splitNL, if_neg h]
      cases heq : splitNL rest with
      | nil => exact absurd heq (splitNL_ne_nil rest)
      | cons a as =>
        rw [heq] at ih
        cases as with
        | nil =>
          show c :: a = c :: rest
          rw [show joinNL [a] = a from rfl] at ih
          rw [ih]
        | cons b bs =>
          show (c :: a) ++ '\n' :: joinNL (b :: bs) = c :: rest
          have : a ++ '\n' :: joinNL (b :: bs) = rest := ih
          simp [← this]

theorem splitNL_no_nl (l : Str) (h : '\n' ∉ l) : splitNL l = [l] := by
  induction l with
  | nil => rfl
  | cons c rest ih =>
    have hc : ¬ c = '\n' := fun hcc => h (hcc ▸ List.mem_cons_self c rest)
    have hr : '\n' ∉ rest := fun hm => h (List.mem_cons_of_mem c hm)
    simp only [splitNL, if_neg hc, ih hr]

theorem splitNL_append_nl (l t : Str) (h : '\n' ∉ l) :
    splitNL (l ++ '\n' :: t) = l :: splitNL t := by
  induction l with
  | nil => simp [splitNL]
  | cons c rest ih =>
    have hc : ¬ c = '\n' := fun hcc => h (hcc ▸ List.mem_cons_self c rest)
    have hr : '\n' ∉ rest := fun hm => h (List.mem_cons_of_mem c hm)
    show splitNL (c :: (rest ++ '\n' :: t)) = (c :: rest) :: splitNL t
    simp only [splitNL, if_neg hc]
    rw [ih hr]

theorem noTwoBlank_tail (x : Str) (xs : List Str)
    (h : noTwoBlank (x :: xs) = true) : noTwoBlank xs = true := by
  cases xs with
  | nil => rfl
  | cons y ys =>
    simp only [noTwoBlank, Bool.and_eq_true] at h
    exact h.2

theorem noTwoBlank_head (x y : Str) (ys : List Str)
    (h : noTwoBlank (x :: y :: ys) = true) (hx : blankLine x = true) :
    blankLine y = false := by
  simp only [noTwoBlank, Bool.and_eq_true] at h
  rcases h with ⟨h1, _⟩
  cases hy : blankLine y
  · rfl
  · rw [hx, hy] at h1
    cases h1

theorem collapseBlanks_cons (b : Bool) (line : Str) (rest : List Str) :
    collapseBlanks b (line :: rest) =
      if blankLine (goTrimRightST line) && b then collapseBlanks b rest
      else goTrimRightST line :: collapseBlanks (blankLine (goTrimRightST line)) rest :=
  rfl

theorem collapse_head_true (ls : List Str) (h : Str) (t : List Str)
    (heq : collapseBlanks true ls = h :: t) : blankLine h = false := by
  induction ls generalizing h t with
  | nil => cases heq
  | cons line rest ih =>
    rw [collapseBlanks_cons, Bool.and_true] at heq
    by_cases hb : blankLine (goTrimRightST line) = true
    · rw [if_pos hb] at heq
      exact ih h t heq
    · rw [if_neg hb] at heq
      cases heq
      exact Bool.eq_false_iff.mpr hb

theorem collapse_noTwoBlank (ls : List Str) (b : Bool) :
    noTwoBlank (collapseBlanks b ls) = true := by
  induction ls generalizing b with
  | nil => rfl
  | cons line rest ih =>
    rw [collapseBlanks_cons]
    by_cases hcond : (blankLine (goTrimRightST line) && b) = true
    · rw [if_pos hcond]
      exact ih b
    · rw [if_neg hcond]
      cases hout : collapseBlanks (blankLine (goTrimRightST line)) rest with
      | nil => rfl
      | cons y ys =>
        show noTwoBlank (goTrimRightST line :: y :: ys) = true
        simp only [noTwoBlank, Bool.and_eq_true]
        constructor
        · cases hbl : blankLine (goTrimRightST line)
          · simp
          · rw [hbl] at hout
            rw [collapse_head_true rest y ys hout]
            rfl
        · rw [← hout]
          exact ih _

theorem collapse_mem (ls : List Str) (b : Bool) (l' : Str)
    (h : l' ∈ collapseBlanks b ls) : ∃ l₀ ∈ ls, l' = goTrimRightST l₀ := by
  induction ls generalizing b with
  | nil => cases h
  | cons line rest ih =>
    rw [collapseBlanks_cons] at h
    by_cases hcond : (blankLine (goTrimRightST line) && b) = true
    · rw [if_pos hcond] at h
      obtain ⟨l₀, hl₀, he⟩ := ih b h
      exact ⟨l₀, List.mem_cons_of_mem _ hl₀, he⟩
    · rw [if_neg hcond] at h
      rcases List.mem_cons.mp h with rfl | h1
      · exact ⟨line, List.mem_cons_self _ _, rfl⟩
      · obtain ⟨l₀, hl₀, he⟩ := ih _ h1
        exact ⟨l₀, List.mem_cons_of_mem _ hl₀, he⟩

theorem collapse_ne_nil (line : Str) (rest : List Str) :
    collapseBlanks false (line :: rest) ≠ [] := by
  rw [collapseBlanks_cons, Bool.and_false]
  simp

theorem map_trim_of_stable (ls : List Str)
    (h : ∀ l ∈ ls, goTrimRightST l = l) : ls.map goTrimRightST = ls := by
  induction ls with
  | nil => rfl
  | cons x xs ih =>
    rw [List.map_cons, h x (List.mem_cons_self _ _),
      ih (fun l hl => h l (List.mem_cons_of_mem _ hl))]

theorem collapse_eq_map (ls : List Str) (b : Bool)
    (h : noTwoBlank (ls.map goTrimRightST) = true)
    (hb : b = true → headNotBlank (ls.map goTrimRightST) = true) :
    collapseBlanks b ls = ls.map goTrimRightST := by
  induction ls generalizing b with
  | nil => rfl
  | cons line rest ih =>
    rw [collapseBlanks_cons, List.map_cons]
    by_cases hcond : (blankLine (goTrimRightST line) && b) = true
    · exfalso
      rw [Bool.and_eq_true] at hcond
      rcases hcond with ⟨h1, h2⟩
      have hh := hb h2
      rw [List.map_cons] at hh
      show False
      have : headNotBlank (goTrimRightST line :: rest.map goTrimRightST) =
          !blankLine (goTrimRightST line) := rfl
      rw [this, h1] at hh
      cases hh
    · rw [if_neg hcond]
      rw [List.map_cons] at h
      congr 1
      refine ih (blankLine (goTrimRightST line)) (noTwoBlank_tail _ _ h) ?_
      intro hbl
      cases hmap : rest.map goTrimRightST with
      | nil => rfl
      | cons y ys =>
        show headNotBlank (y :: ys) = true
        have : blankLine y = false := by
          apply noTwoBlank_head (goTrimRightST line) y ys _ hbl
          rw [← hmap]
          exact h
        show (!blankLine y) = true
        rw [this]
        rfl

theorem linePass_agree (s : Str)
    (h : noTwoBlank ((splitNL (sanitizeCore s)).map goTrimRightST) = true) :
    sanitizeText s = sanitizeText0 s := by
  unfold sanitizeText sanitizeText0
  by_cases hs : s = []
  · rw [if_pos hs, if_pos hs]
  · rw [if_neg hs, if_neg hs]
    unfold normalizePass oldLinePass
    rw [collapse_eq_map _ false h (fun hf => absurd hf (by decide))]

theorem st_imp_ws (c : Char) (h : (c == ' ' || c == '\t') = true) :
    goIsSpace c = true := by
  simp only [Bool.or_eq_true, beq_iff_eq] at h
  rcases h with rfl | rfl <;> decide

theorem allSpace_dropWhile (q : Char → Bool)
    (hq : ∀ c, q c = true → goIsSpace c = true) (l : Str) :
    (List.dropWhile q l).all goIsSpace = l.all goIsSpace := by
  induction l with
  | nil => rfl
  | cons c t ih =>
    by_cases h : q c
    · rw [List.dropWhile_cons, if_pos h, ih, List.all_cons, hq c h, Bool.true_and]
    · rw [List.dropWhile_cons, if_neg h]

theorem allSpace_goTrimLeftSpace (l : Str) :
    allSpace (goTrimLeftSpace l) = allSpace l :=
  allSpace_dropWhile goIsSpace (fun _ h => h) l

theorem allSpace_goTrimRightSpace (l : Str) :
    allSpace (goTrimRightSpace l) = allSpace l := by
  show (List.dropWhile goIsSpace l.reverse).reverse.all goIsSpace = l.all goIsSpace
  rw [List.all_reverse, allSpace_dropWhile goIsSpace (fun _ h => h), List.all_reverse]

theorem allSpace_goTrimRightST (l : Str) :
    allSpace (goTrimRightST l) = allSpace l := by
  show (List.dropWhile _ l.reverse).reverse.all goIsSpace = l.all goIsSpace
  rw [List.all_reverse, allSpace_dropWhile _ st_imp_ws, List.all_reverse]

theorem goTrimRightSpace_eq_nil_iff (u : Str) :
    goTrimRightSpace u = [] ↔ allSpace u = true := by
  show (List.dropWhile goIsSpace u.reverse).reverse = [] ↔ _
  rw [List.reverse_eq_nil_iff, List.dropWhile_eq_nil_iff]
  simp [allSpace, List.all_eq_true, List.mem_reverse]

theorem goTrimSpace_eq_nil_iff (l : Str) :
    goTrimSpace l = [] ↔ allSpace l = true := by
  show goTrimRightSpace (goTrimLeftSpace l) = [] ↔ _
  rw [goTrimRightSpace_eq_nil_iff, allSpace_goTrimLeftSpace]

theorem blankLine_eq_allSpace (l : Str) : blankLine l = allSpace l := by
  unfold blankLine
  cases hA : allSpace l
  · have hne : ¬ goTrimSpace l = [] := fun hh => by
      rw [(goTrimSpace_eq_nil_iff l).mp hh] at hA
      cases hA
    rcases heq : goTrimSpace l with _ | ⟨c, t⟩
    · exact absurd heq hne
    · rfl
  · rw [(goTrimSpace_eq_nil_iff l).mpr hA]
    rfl

theorem goTrimRightST_idem (l : Str) :
    goTrimRightST (goTrimRightST l) = goTrimRightST l := by
  show ((List.dropWhile _ l.reverse).reverse.reverse.dropWhile _).reverse = _
  rw [List.reverse_reverse, dropWhile_idem]
  rfl

theorem goTrimRightSpace_idem (l : Str) :
    goTrimRightSpace (goTrimRightSpace l) = goTrimRightSpace l := by
  show ((List.dropWhile _ l.reverse).reverse.reverse.dropWhile _).reverse = _
  rw [List.reverse_reverse, dropWhile_idem]
  rfl

theorem stable_iff_rev (p : Char → Bool) (l : Str) :
    ((l.reverse.dropWhile p).reverse = l) ↔
      List.dropWhile p l.reverse = l.reverse :=
  List.reverse_eq_iff

theorem dropWhile_eq_self_append (p : Char → Bool) (xs ys : Str)
    (h : List.dropWhile p (xs ++ ys) = xs ++ ys) :
    List.dropWhile p xs = xs := by
  rw [List.dropWhile_append] at h
  by_cases he : (List.dropWhile p xs).isEmpty
  · rw [if_pos he] at h
    have hlen := congrArg List.length h
    rw [List.length_append] at hlen
    have hle : (List.dropWhile p ys).length ≤ ys.length :=
      List.Sublist.length_le (List.dropWhile_sublist _)
    have hxs : xs.length = 0 := by omega
    rw [List.length_eq_zero.mp hxs]
    rfl
  · rw [if_neg he] at h
    exact List.append_cancel_right h

theorem stableST_goTrimLeftSpace (l : Str) (h : goTrimRightST l = l) :
    goTrimRightST (goTrimLeftSpace l) = goTrimLeftSpace l := by
  have h' : List.dropWhile (fun c => c == ' ' || c == '\t') l.reverse = l.reverse :=
    (stable_iff_rev _ _).mp h
  obtain ⟨t, ht⟩ := List.dropWhile_suffix (l := l) goIsSpace
  apply (stable_iff_rev _ _).mpr
  have hrev : l.reverse = (List.dropWhile goIsSpace l).reverse ++ t.reverse := by
    rw [← List.reverse_append, ht]
  rw [hrev] at h'
  exact dropWhile_eq_self_append _ _ _ h'

theorem stableST_goTrimRightSpace (l : Str) :
    goTrimRightST (goTrimRightSpace l) = goTrimRightSpace l := by
  apply (stable_iff_rev _ _).mpr
  have hrr : (goTrimRightSpace l).reverse = List.dropWhile goIsSpace l.reverse := by
    show (List.dropWhile goIsSpace l.reverse).reverse.reverse = _
    rw [List.reverse_reverse]
  rw [hrr]
  cases hX : List.dropWhile goIsSpace l.reverse with
  | nil => rfl
  | cons c t =>
    have hc := dropWhile_head_not _ _ _ _ hX
    have hst : (c == ' ' || c == '\t') = false := by
      cases hv : (c == ' ' || c == '\t')
      · rfl
      · rw [st_imp_ws c hv] at hc
        cases hc
    rw [List.dropWhile_cons, hst]
    simp

theorem goTrimRightSpace_isPrefix (l : Str) :
    ∃ t, l = goTrimRightSpace l ++ t := by
  obtain ⟨t, ht⟩ := List.dropWhile_suffix (l := l.reverse) goIsSpace
  refine ⟨t.reverse, ?_⟩
  have := congrArg List.reverse ht
  rw [List.reverse_append, List.reverse_reverse] at this
  exact this.symm

theorem goTrimSpace_stable (z : Str) :
    goTrimSpace (goTrimSpace z) = goTrimSpace z := by
  show goTrimRightSpace (goTrimLeftSpace (goTrimSpace z)) = goTrimSpace z
  have hleft : goTrimLeftSpace (goTrimSpace z) = goTrimSpace z := by
    cases hy : goTrimSpace z with
    | nil => rfl
    | cons c t =>
      obtain ⟨u, hu⟩ := goTrimRightSpace_isPrefix (goTrimLeftSpace z)
      rw [show goTrimSpace z = goTrimRightSpace (goTrimLeftSpace z) from rfl] at hy
      rw [hy] at hu
      have hc : goIsSpace c = false := by
        apply dropWhile_head_not goIsSpace z c (t ++ u)
        rw [show goTrimLeftSpace z = List.dropWhile goIsSpace z from rfl] at hu
        rw [hu]
        rfl
      show List.dropWhile goIsSpace (c :: t) = c :: t
      rw [List.dropWhile_cons, hc]
      simp
  rw [hleft]
  show goTrimRightSpace (goTrimRightSpace (goTrimLeftSpace z)) = _
  rw [goTrimRightSpace_idem]
  rfl

theorem splitNL_joinNL (ls : List Str) (hne : ls ≠ [])
    (h : ∀ l ∈ ls, '\n' ∉ l) : splitNL (joinNL ls) = ls := by
  induction ls with
  | nil => exact absurd rfl hne
  | cons l rest ih =>
    cases rest with
    | nil =>
      show splitNL l = [l]
      exact splitNL_no_nl l (h l (List.mem_cons_self l []))
    | cons b bs =>
      show splitNL (l ++ '\n' :: joinNL (b :: bs)) = l :: b :: bs
      rw [splitNL_append_nl l _ (h l (List.mem_cons_self l _))]
      rw [ih (by simp) (fun x hx => h x (List.mem_cons_of_mem l hx))]
example : sanitizeText "&amp;&#39;".data = ['&', Char.ofNat 39] := by decide
example : sanitizeText "&#38;#38;".data = "&#38;".data := by decide
example : sanitizeText "&#38;".data = "&".data := by decide
example : sanitizeText "a\n\n\nb".data = "a\n\nb".data := by decide
example : sanitizeText0 "a\n\n\nb".data = "a\n\n\nb".data := by decide

theorem mem_goTrimLeftSpace (l : Str) (c : Char) (h : c ∈ goTrimLeftSpace l) :
    c ∈ l :=
  mem_dropWhile _ _ _ h

theorem mem_goTrimRightSpace (l : Str) (c : Char) (h : c ∈ goTrimRightSpace l) :
    c ∈ l := by
  unfold goTrimRightSpace at h
  rw [List.mem_reverse] at h
  have := mem_dropWhile _ _ _ h
  rwa [List.mem_reverse] at this

theorem allSpace_iff_dropWhile_nil (l : Str) :
    allSpace l = true ↔ List.dropWhile goIsSpace l = [] := by
  rw [List.dropWhile_eq_nil_iff]
  simp [allSpace, List.all_eq_true]

theorem goTrimRightSpace_append (xs ys : Str) :
    goTrimRightSpace (xs ++ ys) =
      if goTrimRightSpace ys = [] then goTrimRightSpace xs
      else xs ++ goTrimRightSpace ys := by
  show (List.dropWhile goIsSpace (xs ++ ys).reverse).reverse = _
  rw [List.reverse_append, List.dropWhile_append]
  by_cases h : (List.dropWhile goIsSpace ys.reverse).isEmpty = true
  · have h2 : goTrimRightSpace ys = [] := by
      show (List.dropWhile goIsSpace ys.reverse).reverse = []
      rw [List.isEmpty_iff.mp h]
      rfl
    rw [if_pos h, if_pos h2]
    rfl
  · have h2 : ¬ goTrimRightSpace ys = [] := by
      intro hh
      apply h
      have h3 : List.dropWhile goIsSpace ys.reverse = [] := by
        rw [← List.reverse_eq_nil_iff]
        exact hh
      rw [h3]
      rfl
    rw [if_neg h, if_neg h2, List.reverse_append, List.reverse_reverse]
    rfl

theorem goTrimRightSpace_cons (c : Char) (u : Str) :
    goTrimRightSpace (c :: u) =
      if goTrimRightSpace u = [] then (if goIsSpace c = true then [] else [c])
      else c :: goTrimRightSpace u := by
  have h0 := goTrimRightSpace_append [c] u
  rw [List.singleton_append] at h0
  rw [h0]
  by_cases h : goTrimRightSpace u = []
  · rw [if_pos h, if_pos h]
    by_cases hc : goIsSpace c = true
    · rw [if_pos hc]
      show (List.dropWhile goIsSpace [c].reverse).reverse = []
      simp [List.dropWhile_cons, hc]
    · rw [if_neg hc]
      show (List.dropWhile goIsSpace [c].reverse).reverse = [c]
      simp [List.dropWhile_cons, hc]
  · rw [if_neg h, if_neg h, List.singleton_append]

theorem allSpace_joinNL (ls : List Str) :
    allSpace (joinNL ls) = ls.all allSpace := by
  induction ls with
  | nil => rfl
  | cons l rest ih =>
    cases rest with
    | nil =>
      show allSpace l = (l :: []).all allSpace
      simp [allSpace]
    | cons b bs =>
      show allSpace (l ++ '\n' :: joinNL (b :: bs)) = _
      have h1 : allSpace (l ++ '\n' :: joinNL (b :: bs)) =
          (l.all goIsSpace && (('\n' :: joinNL (b :: bs)).all goIsSpace)) :=
        List.all_append
      rw [h1, List.all_cons]
      rw [show goIsSpace '\n' = true from by decide]
      rw [Bool.true_and]
      show (l.all goIsSpace && allSpace (joinNL (b :: bs))) = _
      rw [ih, List.all_cons]
      rfl

theorem splitNL_trimLeft_join (ls : List Str) (hne : ls ≠ [])
    (hnl : ∀ l ∈ ls, '\n' ∉ l) :
    splitNL (goTrimLeftSpace (joinNL ls)) = dropBlankLeft ls := by
  induction ls with
  | nil => exact absurd rfl hne
  | cons l rest ih =>
    cases rest with
    | nil =>
      show splitNL (goTrimLeftSpace l) = [goTrimLeftSpace l]
      apply splitNL_no_nl
      intro hmem
      exact hnl l (List.mem_cons_self _ _) (mem_goTrimLeftSpace _ _ hmem)
    | cons b bs =>
      show splitNL (goTrimLeftSpace (l ++ '\n' :: joinNL (b :: bs))) =
        dropBlankLeft (l :: b :: bs)
      unfold goTrimLeftSpace
      rw [List.dropWhile_append]
      by_cases hl : (List.dropWhile goIsSpace l).isEmpty = true
      · rw [if_pos hl, List.dropWhile_cons,
          if_pos (show goIsSpace '\n' = true from by decide)]
        have hAll : allSpace l = true :=
          (allSpace_iff_dropWhile_nil l).mpr (List.isEmpty_iff.mp hl)
        rw [show dropBlankLeft (l :: b :: bs) = dropBlankLeft (b :: bs) from by
          simp [dropBlankLeft, hAll]]
        exact ih (by simp) (fun x hx => hnl x (List.mem_cons_of_mem _ hx))
      · rw [if_neg hl]
        have hnl2 : '\n' ∉ List.dropWhile goIsSpace l := fun hm =>
          hnl l (List.mem_cons_self _ _) (mem_dropWhile _ _ _ hm)
        rw [splitNL_append_nl _ _ hnl2]
        rw [splitNL_joinNL (b :: bs) (by simp)
          (fun x hx => hnl x (List.mem_cons_of_mem _ hx))]
        have hAll : allSpace l = false := by
          cases hA : allSpace l
          · rfl
          · rw [(allSpace_iff_dropWhile_nil l).mp hA] at hl
            exact absurd rfl hl
        simp [dropBlankLeft, hAll]
        rfl

theorem splitNL_trimRight_join (ls : List Str) (hne : ls ≠ [])
    (hnl : ∀ l ∈ ls, '\n' ∉ l) :
    splitNL (goTrimRightSpace (joinNL ls)) = dropBlankRight ls := by
  induction ls with
  | nil => exact absurd rfl hne
  | cons l rest ih =>
    cases rest with
    | nil =>
      show splitNL (goTrimRightSpace l) = [goTrimRightSpace l]
      apply splitNL_no_nl
      intro hmem
      exact hnl l (List.mem_cons_self _ _) (mem_goTrimRightSpace _ _ hmem)
    | cons b bs =>
      show splitNL (goTrimRightSpace (l ++ '\n' :: joinNL (b :: bs))) =
        dropBlankRight (l :: b :: bs)
      rw [goTrimRightSpace_append]
      by_cases hblank : goTrimRightSpace ('\n' :: joinNL (b :: bs)) = []
      · rw [if_pos hblank]
        have h1 := (goTrimRightSpace_eq_nil_iff _).mp hblank
        have hall : (b :: bs).all allSpace = true := by
          have h2 : allSpace (joinNL (b :: bs)) = true := by
            have h3 : allSpace ('\n' :: joinNL (b :: bs)) = true := h1
            rw [show allSpace ('\n' :: joinNL (b :: bs)) =
              (goIsSpace '\n' && allSpace (joinNL (b :: bs))) from List.all_cons] at h3
            rw [show goIsSpace '\n' = true from by decide, Bool.true_and] at h3
            exact h3
          rw [← allSpace_joinNL]
          exact h2
        rw [show dropBlankRight (l :: b :: bs) = [goTrimRightSpace l] from by
          simp [dropBlankRight, hall]]
        apply splitNL_no_nl
        intro hmem
        exact hnl l (List.mem_cons_self _ _) (mem_goTrimRightSpace _ _ hmem)
      · rw [if_neg hblank]
        rw [goTrimRightSpace_cons] at hblank ⊢
        by_cases hu : goTrimRightSpace (joinNL (b :: bs)) = []
        · exfalso
          apply hblank
          rw [if_pos hu, if_pos (show goIsSpace '\n' = true from by decide)]
        · rw [if_neg hu]
          rw [splitNL_append_nl _ _ (fun hm => hnl l (List.mem_cons_self _ _) hm)]
          rw [ih (by simp) (fun x hx => hnl x (List.mem_cons_of_mem _ hx))]
          have hall : (b :: bs).all allSpace = false := by
            cases hA : (b :: bs).all allSpace
            · rfl
            · exfalso
              apply hu
              rw [goTrimRightSpace_eq_nil_iff, allSpace_joinNL]
              exact hA
          simp [dropBlankRight, hall]


theorem blankLine_goTrimLeftSpace (l : Str) :
    blankLine (goTrimLeftSpace l) = blankLine l := by
  rw [blankLine_eq_allSpace, blankLine_eq_allSpace, allSpace_goTrimLeftSpace]

theorem blankLine_goTrimRightSpace (l : Str) :
    blankLine (goTrimRightSpace l) = blankLine l := by
  rw [blankLine_eq_allSpace, blankLine_eq_allSpace, allSpace_goTrimRightSpace]

theorem dropBlankLeft_ne_nil (ls : List Str) (h : ls ≠ []) :
    dropBlankLeft ls ≠ [] := by
  induction ls with
  | nil => exact absurd rfl h
  | cons l rest ih =>
    cases rest with
    | nil => simp [dropBlankLeft]
    | cons b bs =>
      simp only [dropBlankLeft]
      by_cases hA : allSpace l = true
      · rw [if_pos hA]
        exact ih (by simp)
      · rw [if_neg hA]
        simp

theorem mem_dropBlankLeft (ls : List Str) (l' : Str)
    (h : l' ∈ dropBlankLeft ls) :
    (∃ l₀ ∈ ls, l' = goTrimLeftSpace l₀) ∨ l' ∈ ls := by
  induction ls with
  | nil => cases h
  | cons l rest ih =>
    cases rest with
    | nil =>
      simp only [dropBlankLeft, List.mem_singleton] at h
      exact Or.inl ⟨l, List.mem_cons_self _ _, h⟩
    | cons b bs =>
      simp only [dropBlankLeft] at h
      by_cases hA : allSpace l = true
      · rw [if_pos hA] at h
        rcases ih h with ⟨l₀, hl₀, he⟩ | hm
        · exact Or.inl ⟨l₀, List.mem_cons_of_mem _ hl₀, he⟩
        · exact Or.inr (List.mem_cons_of_mem _ hm)
      · rw [if_neg hA] at h
        rcases List.mem_cons.mp h with rfl | hm
        · exact Or.inl ⟨l, List.mem_cons_self _ _, rfl⟩
        · exact Or.inr (List.mem_cons_of_mem _ hm)

theorem mem_dropBlankRight (ls : List Str) (l' : Str)
    (h : l' ∈ dropBlankRight ls) :
    (∃ l₀ ∈ ls, l' = goTrimRightSpace l₀) ∨ l' ∈ ls := by
  induction ls with
  | nil => cases h
  | cons l rest ih =>
    cases rest with
    | nil =>
      simp only [dropBlankRight, List.mem_singleton] at h
      exact Or.inl ⟨l, List.mem_cons_self _ _, h⟩
    | cons b bs =>
      simp only [dropBlankRight] at h
      by_cases hA : (b :: bs).all allSpace = true
      · rw [if_pos hA] at h
        simp only [List.mem_singleton] at h
        exact Or.inl ⟨l, List.mem_cons_self _ _, h⟩
      · rw [if_neg hA] at h
        rcases List.mem_cons.mp h with rfl | hm
        · exact Or.inr (List.mem_cons_self _ _)
        · rcases ih hm with ⟨l₀, hl₀, he⟩ | hmm
          · exact Or.inl ⟨l₀, List.mem_cons_of_mem _ hl₀, he⟩
          · exact Or.inr (List.mem_cons_of_mem _ hmm)

theorem stable_dropBlankLeft (ls : List Str)
    (hstable : ∀ l ∈ ls, goTrimRightST l = l) :
    ∀ l' ∈ dropBlankLeft ls, goTrimRightST l' = l' := by
  intro l' h
  rcases mem_dropBlankLeft ls l' h with ⟨l₀, hl₀, rfl⟩ | hmem
  · exact stableST_goTrimLeftSpace l₀ (hstable l₀ hl₀)
  · exact hstable l' hmem

theorem stable_dropBlankRight (ls : List Str)
    (hstable : ∀ l ∈ ls, goTrimRightST l = l) :
    ∀ l' ∈ dropBlankRight ls, goTrimRightST l' = l' := by
  intro l' h
  rcases mem_dropBlankRight ls l' h with ⟨l₀, _, rfl⟩ | hmem
  · exact stableST_goTrimRightSpace l₀
  · exact hstable l' hmem

theorem noNL_dropBlankLeft (ls : List Str) (h : ∀ l ∈ ls, '\n' ∉ l) :
    ∀ l' ∈ dropBlankLeft ls, '\n' ∉ l' := by
  intro l' hl' hm
  rcases mem_dropBlankLeft ls l' hl' with ⟨l₀, hl₀, rfl⟩ | hmem
  · exact h l₀ hl₀ (mem_goTrimLeftSpace _ _ hm)
  · exact h l' hmem hm

theorem noTwoBlank_dropBlankLeft (ls : List Str) (h : noTwoBlank ls = true) :
    noTwoBlank (dropBlankLeft ls) = true := by
  induction ls with
  | nil => rfl
  | cons l rest ih =>
    cases rest with
    | nil => rfl
    | cons b bs =>
      simp only [dropBlankLeft]
      by_cases hA : allSpace l = true
      · rw [if_pos hA]
        exact ih (noTwoBlank_tail _ _ h)
      · rw [if_neg hA]
        show noTwoBlank (goTrimLeftSpace l :: b :: bs) = true
        simp only [noTwoBlank, Bool.and_eq_true]
        constructor
        · rw [blankLine_goTrimLeftSpace, blankLine_eq_allSpace]
          cases hAv : allSpace l
          · simp
          · exact absurd hAv hA
        · have := noTwoBlank_tail _ _ h
          simpa [noTwoBlank, Bool.and_eq_true] using this

theorem dropBlankRight_head_blank (l : Str) (ls : List Str) (y : Str)
    (ys : List Str) (h : dropBlankRight (l :: ls) = y :: ys) :
    blankLine y = blankLine l := by
  cases ls with
  | nil =>
    simp only [dropBlankRight] at h
    cases h
    exact blankLine_goTrimRightSpace l
  | cons b bs =>
    simp only [dropBlankRight] at h
    by_cases hA : (b :: bs).all allSpace = true
    · rw [if_pos hA] at h
      cases h
      exact blankLine_goTrimRightSpace l
    · rw [if_neg hA] at h
      cases h
      rfl

theorem noTwoBlank_dropBlankRight (ls : List Str) (h : noTwoBlank ls = true) :
    noTwoBlank (dropBlankRight ls) = true := by
  induction ls with
  | nil => rfl
  | cons l rest ih =>
    cases rest with
    | nil => rfl
    | cons b bs =>
      simp only [dropBlankRight]
      by_cases hA : (b :: bs).all allSpace = true
      · rw [if_pos hA]
        rfl
      · rw [if_neg hA]
        cases hout : dropBlankRight (b :: bs) with
        | nil => rfl
        | cons y ys =>
          show noTwoBlank (l :: y :: ys) = true
          simp only [noTwoBlank, Bool.and_eq_true]
          constructor
          · have hy : blankLine y = blankLine b :=
              dropBlankRight_head_blank b bs y ys hout
            have h1 : (!(blankLine l && blankLine b)) = true := by
              simp only [noTwoBlank, Bool.and_eq_true] at h
              exact h.1
            rw [hy]
            exact h1
          · rw [← hout]
            exact ih (noTwoBlank_tail _ _ h)

theorem normalizePass_props (s : Str) :
    (∀ l ∈ splitNL (normalizePass s), goTrimRightST l = l) ∧
    noTwoBlank (splitNL (normalizePass s)) = true := by
  have hne0 : collapseBlanks false (splitNL s) ≠ [] := by
    cases hsp : splitNL s with
    | nil => exact absurd hsp (splitNL_ne_nil s)
    | cons a as => exact collapse_ne_nil a as
  have hnl0 : ∀ l ∈ collapseBlanks false (splitNL s), '\n' ∉ l := by
    intro l hl
    obtain ⟨l₀, hl₀, rfl⟩ := collapse_mem _ _ _ hl
    intro hm
    exact mem_splitNL_no_nl s l₀ hl₀ (mem_goTrimRightST _ _ hm)
  have hst0 : ∀ l ∈ collapseBlanks false (splitNL s), goTrimRightST l = l := by
    intro l hl
    obtain ⟨l₀, hl₀, rfl⟩ := collapse_mem _ _ _ hl
    exact goTrimRightST_idem l₀
  have hnb0 : noTwoBlank (collapseBlanks false (splitNL s)) = true :=
    collapse_noTwoBlank _ _
  have hzw : goTrimLeftSpace (joinNL (collapseBlanks false (splitNL s))) =
      joinNL (dropBlankLeft (collapseBlanks false (splitNL s))) := by
    have h1 := splitNL_trimLeft_join _ hne0 hnl0
    have h2 := joinNL_splitNL
      (goTrimLeftSpace (joinNL (collapseBlanks false (splitNL s))))
    rw [h1] at h2
    exact h2.symm
  have hnorm : normalizePass s =
      goTrimRightSpace (joinNL (dropBlankLeft (collapseBlanks false (splitNL s)))) := by
    show goTrimRightSpace (goTrimLeftSpace
      (joinNL (collapseBlanks false (splitNL s)))) = _
    rw [hzw]
  have hne1 := dropBlankLeft_ne_nil _ hne0
  have hnl1 := noNL_dropBlankLeft _ hnl0
  have hst1 := stable_dropBlankLeft _ hst0
  have hnb1 := noTwoBlank_dropBlankLeft _ hnb0
  have hlines : splitNL (normalizePass s) =
      dropBlankRight (dropBlankLeft (collapseBlanks false (splitNL s))) := by
    rw [hnorm]
    exact splitNL_trimRight_join _ hne1 hnl1
  rw [hlines]
  exact ⟨stable_dropBlankRight _ hst1, noTwoBlank_dropBlankRight _ hnb1⟩

theorem normalizePass_trimSpace (s : Str) :
    goTrimSpace (normalizePass s) = normalizePass s :=
  goTrimSpace_stable (joinNL (collapseBlanks false (splitNL s)))

theorem normalizePass_idem (s : Str) :
    normalizePass (normalizePass s) = normalizePass s := by
  obtain ⟨hst, hnb⟩ := normalizePass_props s
  show goTrimSpace (joinNL (collapseBlanks false (splitNL (normalizePass s)))) = _
  rw [collapse_eq_map _ false
    (by rw [map_trim_of_stable _ hst]; exact hnb)
    (fun hf => absurd hf (by decide))]
  rw [map_trim_of_stable _ hst]
  rw [joinNL_splitNL]
  exact normalizePass_trimSpace s

theorem mem_joinNL (ls : List Str) (c : Char) (h : c ∈ joinNL ls) :
    (∃ l ∈ ls, c ∈ l) ∨ c = '\n' := by
  induction ls with
  | nil => cases h
  | cons l rest ih =>
    cases rest with
    | nil => exact Or.inl ⟨l, List.mem_cons_self _ _, h⟩
    | cons b bs =>
      rcases List.mem_append.mp h with h1 | h1
      · exact Or.inl ⟨l, List.mem_cons_self _ _, h1⟩
      · rcases List.mem_cons.mp h1 with rfl | h2
        · exact Or.inr rfl
        · rcases ih h2 with ⟨l₀, hl₀, hc⟩ | hc
          · exact Or.inl ⟨l₀, List.mem_cons_of_mem _ hl₀, hc⟩
          · exact Or.inr hc

theorem mem_normalizePass (s : Str) (c : Char) (h : c ∈ normalizePass s) :
    c ∈ s ∨ c = '\n' := by
  have h1 := mem_goTrimSpace _ _ h
  rcases mem_joinNL _ _ h1 with ⟨l, hl, hc⟩ | hc
  · obtain ⟨l₀, hl₀, rfl⟩ := collapse_mem _ _ _ hl
    exact Or.inl (mem_of_mem_splitNL s l₀ c hl₀ (mem_goTrimRightST _ _ hc))
  · exact Or.inr hc

theorem stripTags_cons (b : Bool) (c : Char) (rest : Str) :
    stripTags b (c :: rest) =
      if c = '<' then stripTags true rest
      else if c = '>' then stripTags false rest
      else if b then stripTags b rest
      else c :: stripTags b rest :=
  rfl

theorem stripTags_no_angle (b : Bool) (s : Str) :
    '<' ∉ stripTags b s ∧ '>' ∉ stripTags b s := by
  induction s generalizing b with
  | nil => exact ⟨List.not_mem_nil _, List.not_mem_nil _⟩
  | cons c rest ih =>
    rw [stripTags_cons]
    by_cases h1 : c = '<'
    · rw [if_pos h1]
      exact ih true
    · rw [if_neg h1]
      by_cases h2 : c = '>'
      · rw [if_pos h2]
        exact ih false
      · rw [if_neg h2]
        by_cases hb : b = true
        · rw [if_pos hb]
          exact ih b
        · rw [if_neg hb]
          obtain ⟨ihl, ihr⟩ := ih b
          constructor
          · intro hm
            rcases List.mem_cons.mp hm with he | hm2
            · exact h1 he.symm
            · exact ihl hm2
          · intro hm
            rcases List.mem_cons.mp hm with he | hm2
            · exact h2 he.symm
            · exact ihr hm2

theorem stripTags_id (s : Str) (h1 : '<' ∉ s) (h2 : '>' ∉ s) :
    stripTags false s = s := by
  induction s with
  | nil => rfl
  | cons c rest ih =>
    have hc1 : ¬ c = '<' := fun he => h1 (he ▸ List.mem_cons_self _ _)
    have hc2 : ¬ c = '>' := fun he => h2 (he ▸ List.mem_cons_self _ _)
    rw [stripTags_cons, if_neg hc1, if_neg hc2,
      if_neg (by simp : ¬ (false = true))]
    rw [ih (fun hm => h1 (List.mem_cons_of_mem _ hm))
      (fun hm => h2 (List.mem_cons_of_mem _ hm))]

theorem replaceAllF_id (n : Nat) (s : Str) (p : Char) (ps rep : Str)
    (h : p ∉ s) : replaceAllF n s (p :: ps) rep = s := by
  induction n generalizing s with
  | zero => rfl
  | succ n ih =>
    cases s with
    | nil => rfl
    | cons c cs =>
      have hpre : ¬ ((p :: ps).isPrefixOf (c :: cs) = true) := by
        show ¬ ((p == c && List.isPrefixOf ps cs) = true)
        intro hcontra
        rw [Bool.and_eq_true] at hcontra
        exact h (beq_iff_eq.mp hcontra.1 ▸ List.mem_cons_self c cs)
      show (if (p :: ps).isPrefixOf (c :: cs) = true then
        rep ++ replaceAllF n (cs.drop ps.length) (p :: ps) rep
        else c :: replaceAllF n cs (p :: ps) rep) = c :: cs
      rw [if_neg hpre]
      congr 1
      exact ih cs (fun hm => h (List.mem_cons_of_mem _ hm))

theorem replaceAll_head_id (s : Str) (p : Char) (ps rep : Str) (h : p ∉ s) :
    replaceAll s (p :: ps) rep = s :=
  replaceAllF_id s.length s p ps rep h

theorem sanitizeRepls_id (s : Str) (h : '<' ∉ s) : sanitizeRepls s = s := by
  unfold sanitizeRepls
  rw [replaceAll_head_id s '<' _ _ h, replaceAll_head_id s '<' _ _ h,
    replaceAll_head_id s '<' _ _ h, replaceAll_head_id s '<' _ _ h,
    replaceAll_head_id s '<' _ _ h]

theorem sanitizeText_no_angle (s : Str) :
    '<' ∉ sanitizeText s ∧ '>' ∉ sanitizeText s := by
  unfold sanitizeText
  by_cases hs : s = []
  · rw [if_pos hs, hs]
    simp
  · rw [if_neg hs]
    obtain ⟨h1, h2⟩ := stripTags_no_angle false (sanitizeRepls (htmlUnescape s))
    constructor
    · intro hm
      rcases mem_normalizePass _ _ hm with hc | hc
      · exact h1 hc
      · exact absurd hc (by decide)
    · intro hm
      rcases mem_normalizePass _ _ hm with hc | hc
      · exact h2 hc
      · exact absurd hc (by decide)

theorem sanitizeText_idemAux (x : Str)
    (h : htmlUnescape (sanitizeText x) = sanitizeText x) :
    sanitizeText (sanitizeText x) = sanitizeText x := by
  by_cases hx : x = []
  · rw [hx]
    rfl
  · by_cases hy : sanitizeText x = []
    · rw [hy]
      rfl
    · have hlt : '<' ∉ sanitizeText x := (sanitizeText_no_angle x).1
      have hgt : '>' ∉ sanitizeText x := (sanitizeText_no_angle x).2
      show (if sanitizeText x = [] then sanitizeText x
        else normalizePass (sanitizeCore (sanitizeText x))) = sanitizeText x
      rw [if_neg hy]
      have hcore : sanitizeCore (sanitizeText x) = sanitizeText x := by
        unfold sanitizeCore
        rw [h, sanitizeRepls_id _ hlt, stripTags_id _ hlt hgt]
      rw [hcore]
      have hexp : sanitizeText x = normalizePass (sanitizeCore x) := by
        unfold sanitizeText
        rw [if_neg hx]
      rw [hexp, normalizePass_idem]

theorem classifyStep_self (st : Classified) (r : Review)
    (h : isSelfReview r = true) :
    classifyStep st r = { st with
      selfByQ := fun q => if q = r.questionId then st.selfByQ q ++ [r]
        else st.selfByQ q
      qOrderSelf := if st.seenSelf r.questionId then st.qOrderSelf
        else st.qOrderSelf ++ [r.questionId]
      seenSelf := fun q => if q = r.questionId then true else st.seenSelf q } := by
  unfold classifyStep
  rw [if_pos h]

theorem classifyStep_not_self (st : Classified) (r : Review)
    (h : ¬ isSelfReview r = true) :
    (classifyStep st r).selfByQ = st.selfByQ ∧
    (classifyStep st r).qOrderSelf = st.qOrderSelf ∧
    (classifyStep st r).seenSelf = st.seenSelf := by
  unfold classifyStep
  rw [if_neg h]
  cases hresp : r.response with
  | none => exact ⟨rfl, rfl, rfl⟩
  | some resp =>
    dsimp only
    by_cases hc : hasContent resp = true
    · rw [if_pos hc]
      exact ⟨rfl, rfl, rfl⟩
    · rw [if_neg hc]
      exact ⟨rfl, rfl, rfl⟩

theorem classifyStep_self_peer (st : Classified) (r : Review)
    (h : isSelfReview r = true) :
    (classifyStep st r).peerByQ = st.peerByQ ∧
    (classifyStep st r).qOrderPeer = st.qOrderPeer ∧
    (classifyStep st r).seenPeer = st.seenPeer := by
  rw [classifyStep_self st r h]
  exact ⟨rfl, rfl, rfl⟩

theorem classifyStep_peer_dropped (st : Classified) (r : Review)
    (h : ¬ isSelfReview r = true) (hk : peerKept r = false) :
    classifyStep st r = st := by
  unfold classifyStep
  rw [if_neg h]
  cases hresp : r.response with
  | none => rfl
  | some resp =>
    unfold peerKept at hk
    rw [hresp] at hk
    have hk2 : hasContent resp = false := hk
    dsimp only
    rw [if_neg (by rw [hk2]; exact Bool.false_ne_true)]

theorem classifyStep_peer_kept (st : Classified) (r : Review)
    (h : ¬ isSelfReview r = true) (hk : peerKept r = true) :
    classifyStep st r = { st with
      peerByQ := fun q => if q = r.questionId then st.peerByQ q ++ [r]
        else st.peerByQ q
      qOrderPeer := if st.seenPeer r.questionId then st.qOrderPeer
        else st.qOrderPeer ++ [r.questionId]
      seenPeer := fun q => if q = r.questionId then true else st.seenPeer q } := by
  unfold classifyStep
  rw [if_neg h]
  unfold peerKept at hk
  cases hresp : r.response with
  | none =>
    rw [hresp] at hk
    cases hk
  | some resp =>
    rw [hresp] at hk
    have hk2 : hasContent resp = true := hk
    dsimp only
    rw [if_pos hk2]

theorem classifyAux_selfByQ (rs : List Review) (st : Classified) (q : Str) :
    (classifyAux st rs).selfByQ q =
      st.selfByQ q ++ rs.filter (fun r => isSelfReview r && r.questionId == q) := by
  induction rs generalizing st with
  | nil => simp [classifyAux]
  | cons r rest ih =>
    show (classifyAux (classifyStep st r) rest).selfByQ q = _
    rw [ih, List.filter_cons]
    by_cases hself : isSelfReview r = true
    · rw [classifyStep_self st r hself]
      dsimp only
      by_cases hq : (r.questionId == q) = true
      · have hqe : q = r.questionId := (beq_iff_eq.mp hq).symm
        have hcond : (isSelfReview r && r.questionId == q) = true := by
          rw [hself, hq]
          rfl
        rw [if_pos hqe, if_pos hcond, List.append_assoc, List.singleton_append]
      · have hq' : (r.questionId == q) = false := Bool.eq_false_iff.mpr hq
        have hcond : ¬ ((isSelfReview r && r.questionId == q) = true) := by
          rw [hself, Bool.true_and, hq']
          exact Bool.false_ne_true
        rw [if_neg (fun hqe => hq (beq_iff_eq.mpr hqe.symm)), if_neg hcond]
    · have hself' : isSelfReview r = false := Bool.eq_false_iff.mpr hself
      rw [if_neg (by rw [hself', Bool.false_and]; exact Bool.false_ne_true)]
      rw [(classifyStep_not_self st r hself).1]

theorem classifyAux_peerByQ (rs : List Review) (st : Classified) (q : Str) :
    (classifyAux st rs).peerByQ q =
      st.peerByQ q ++
        rs.filter (fun r => !isSelfReview r && peerKept r && r.questionId == q) := by
  induction rs generalizing st with
  | nil => simp [classifyAux]
  | cons r rest ih =>
    show (classifyAux (classifyStep st r) rest).peerByQ q = _
    rw [ih, List.filter_cons]
    by_cases hself : isSelfReview r = true
    · rw [if_neg (by rw [hself]; simp)]
      rw [(classifyStep_self_peer st r hself).1]
    · have hself' : isSelfReview r = false := Bool.eq_false_iff.mpr hself
      by_cases hk : peerKept r = true
      · rw [classifyStep_peer_kept st r hself hk]
        dsimp only
        by_cases hq : (r.questionId == q) = true
        · have hqe : q = r.questionId := (beq_iff_eq.mp hq).symm
          have hcond : (!isSelfReview r && peerKept r && r.questionId == q) = true := by
            rw [hself', hk, hq]
            rfl
          rw [if_pos hqe, if_pos hcond, List.append_assoc, List.singleton_append]
        · have hq' : (r.questionId == q) = false := Bool.eq_false_iff.mpr hq
          have hcond : ¬ ((!isSelfReview r && peerKept r && r.questionId == q) = true) := by
            rw [hself', hk, hq']
            simp
          rw [if_neg (fun hqe => hq (beq_iff_eq.mpr hqe.symm)), if_neg hcond]
      · have hk' : peerKept r = false := Bool.eq_false_iff.mpr hk
        rw [if_neg (by rw [hself', hk']; simp)]
        rw [classifyStep_peer_dropped st r hself hk']

theorem dedupNewF_cons (seen : Str → Bool) (q : Str) (rest : List Str) :
    dedupNewF seen (q :: rest) =
      if seen q then dedupNewF seen rest
      else q :: dedupNewF (fun x => if x = q then true else seen x) rest :=
  rfl

theorem classifyAux_qOrderSelf (rs : List Review) (st : Classified) :
    (classifyAux st rs).qOrderSelf =
      st.qOrderSelf ++
        dedupNewF st.seenSelf
          ((rs.filter isSelfReview).map (fun r => r.questionId)) := by
  induction rs generalizing st with
  | nil => simp [classifyAux, dedupNewF]
  | cons r rest ih =>
    show (classifyAux (classifyStep st r) rest).qOrderSelf = _
    rw [ih, List.filter_cons]
    by_cases hself : isSelfReview r = true
    · rw [if_pos hself, List.map_cons, classifyStep_self st r hself]
      dsimp only
      rw [dedupNewF_cons]
      by_cases hseen : st.seenSelf r.questionId = true
      · rw [if_pos hseen, if_pos hseen]
        have hfun : (fun x => if x = r.questionId then true else st.seenSelf x) =
            st.seenSelf := by
          funext x
          by_cases hx : x = r.questionId
          · rw [if_pos hx, hx, hseen]
          · rw [if_neg hx]
        rw [hfun]
      · rw [if_neg hseen, if_neg hseen, List.append_assoc, List.singleton_append]
    · rw [if_neg hself]
      obtain ⟨_, h2, h3⟩ := classifyStep_not_self st r hself
      rw [h2, h3]

theorem classifyAux_qOrderPeer (rs : List Review) (st : Classified) :
    (classifyAux st rs).qOrderPeer =
      st.qOrderPeer ++
        dedupNewF st.seenPeer
          ((rs.filter (fun r => !isSelfReview r && peerKept r)).map
            (fun r => r.questionId)) := by
  induction rs generalizing st with
  | nil => simp [classifyAux, dedupNewF]
  | cons r rest ih =>
    show (classifyAux (classifyStep st r) rest).qOrderPeer = _
    rw [ih, List.filter_cons]
    by_cases hself : isSelfReview r = true
    · rw [if_neg (by rw [hself]; simp)]
      obtain ⟨_, h2, h3⟩ := classifyStep_self_peer st r hself
      rw [h2, h3]
    · have hself' : isSelfReview r = false := Bool.eq_false_iff.mpr hself
      by_cases hk : peerKept r = true
      · rw [if_pos (by rw [hself', hk]; rfl), List.map_cons,
          classifyStep_peer_kept st r hself hk]
        dsimp only
        rw [dedupNewF_cons]
        by_cases hseen : st.seenPeer r.questionId = true
        · rw [if_pos hseen, if_pos hseen]
          have hfun : (fun x => if x = r.questionId then true else st.seenPeer x) =
              st.seenPeer := by
            funext x
            by_cases hx : x = r.questionId
            · rw [if_pos hx, hx, hseen]
            · rw [if_neg hx]
          rw [hfun]
        · rw [if_neg hseen, if_neg hseen, List.append_assoc, List.singleton_append]
      · have hk' : peerKept r = false := Bool.eq_false_iff.mpr hk
        rw [if_neg (by rw [hself', hk']; simp),
          classifyStep_peer_dropped st r hself hk']

theorem dedupNewF_eq_firstOccurrences (L : List Str) (seen : Str → Bool) :
    dedupNewF seen L = firstOccurrences (L.filter (fun q => !seen q)) := by
  induction L generalizing seen with
  | nil => simp [dedupNewF, firstOccurrences]
  | cons q rest ih =>
    rw [dedupNewF_cons, List.filter_cons]
    by_cases hs : seen q = true
    · rw [if_pos hs, if_neg (by rw [hs]; simp)]
      exact ih seen
    · have hs' : seen q = false := Bool.eq_false_iff.mpr hs
      rw [if_neg hs, if_pos (by rw [hs']; rfl)]
      simp only [firstOccurrences]
      congr 1
      rw [ih]
      congr 1
      rw [List.filter_filter]
      apply List.filter_congr
      intro x _
      by_cases hx : x = q
      · rw [hx]
        simp
      · have hbne : (x != q) = true := by
          simp [bne, hx]
        simp [hx, hbne]

theorem classify_selfByQ (rs : List Review) (q : Str) :
    (classify rs).selfByQ q =
      rs.filter (fun r => isSelfReview r && r.questionId == q) := by
  show (classifyAux classifyInit rs).selfByQ q = _
  rw [classifyAux_selfByQ]
  rfl

theorem classify_peerByQ (rs : List Review) (q : Str) :
    (classify rs).peerByQ q =
      rs.filter (fun r => !isSelfReview r && peerKept r && r.questionId == q) := by
  show (classifyAux classifyInit rs).peerByQ q = _
  rw [classifyAux_peerByQ]
  rfl

theorem classify_qOrderSelf (rs : List Review) :
    (classify rs).qOrderSelf =
      firstOccurrences ((rs.filter isSelfReview).map (fun r => r.questionId)) := by
  show (classifyAux classifyInit rs).qOrderSelf = _
  rw [classifyAux_qOrderSelf]
  show dedupNewF (fun _ => false) _ = _
  rw [dedupNewF_eq_firstOccurrences]
  congr 1
  apply List.filter_eq_self.mpr
  intro a _
  rfl

theorem classify_qOrderPeer (rs : List Review) :
    (classify rs).qOrderPeer =
      firstOccurrences
        ((rs.filter (fun r => !isSelfReview r && peerKept r)).map
          (fun r => r.questionId)) := by
  show (classifyAux classifyInit rs).qOrderPeer = _
  rw [classifyAux_qOrderPeer]
  show dedupNewF (fun _ => false) _ = _
  rw [dedupNewF_eq_firstOccurrences]
  congr 1
  apply List.filter_eq_self.mpr
  intro a _
  rfl

theorem filterCycles_eq (fetch : Str → Except Str (List RevieweeRec))
    (uid : Str) (cycles : List ReviewCycle) :
    filterCycles fetch uid cycles = cycles.filterMap (eligibleEntry fetch uid) := by
  induction cycles with
  | nil => rfl
  | cons cy rest ih =>
    rw [List.filterMap_cons]
    cases hf : fetch cy.revieweesUrl with
    | error e =>
      have he : eligibleEntry fetch uid cy = none := by
        unfold eligibleEntry
        rw [hf]
      rw [he]
      show filterCycles fetch uid (cy :: rest) = _
      unfold filterCycles
      rw [hf]
      exact ih
    | ok reviewees =>
      cases hfind : reviewees.find? (fun rv => rv.userId == uid) with
      | none =>
        have he : eligibleEntry fetch uid cy = none := by
          unfold eligibleEntry
          rw [hf]
          dsimp only
          rw [hfind]
          rfl
        rw [he]
        show filterCycles fetch uid (cy :: rest) = _
        unfold filterCycles
        rw [hf]
        dsimp only
        rw [hfind]
        exact ih
      | some rv =>
        have he : eligibleEntry fetch uid cy = some ⟨cy.name, rv.reviewsUrl, cy⟩ := by
          unfold eligibleEntry
          rw [hf]
          dsimp only
          rw [hfind]
          rfl
        rw [he]
        show filterCycles fetch uid (cy :: rest) = _
        unfold filterCycles
        rw [hf]
        dsimp only
        rw [hfind]
        rw [ih]

theorem maskRun_eq_map (s : Str) : maskRun s = s.map maskChar := by
  induction s with
  | nil => rfl
  | cons c cs ih =>
    show (if goIsSpace c then c else '▒') :: maskRun cs = maskChar c :: cs.map maskChar
    rw [ih]
    rfl

theorem quoteBlock_placeholder (censor : Bool) (quote : Str)
    (h : goTrimSpace quote = []) :
    quoteBlock censor (quoteOrPlaceholder quote) =
      "> ".data ++ mask censor "(no comment)".data ++ "\n".data := by
  have hp : quoteOrPlaceholder quote = "(no comment)".data := by
    unfold quoteOrPlaceholder
    rw [h]
    rfl
  rw [hp]
  cases censor
  · rfl
  · rfl

theorem renderSelfReview_noText (censor : Bool) (r : Review)
    (h : r.response = none ∨ ∃ resp, r.response = some resp ∧
        (resp.comment = none ∨ ∃ c, resp.comment = some c ∧ goTrimSpace c = []) ∧
        resp.choices = []) :
    renderSelfReview censor r = quoteBlock censor "(no comment)".data ++ "\n".data := by
  unfold renderSelfReview
  have hq : (match r.response with
      | some resp => rawQuote resp
      | none => []) = ([] : Str) := by
    rcases h with hnone | ⟨resp, hsome, hcm, hch⟩
    · rw [hnone]
    · rw [hsome]
      dsimp only
      unfold rawQuote
      have hcne : ¬ (commentNonEmpty resp = true) := by
        unfold commentNonEmpty
        rcases hcm with hn | ⟨c, hc, hct⟩
        · rw [hn]
          exact Bool.false_ne_true
        · rw [hc]
          dsimp only
          rw [hct]
          exact Bool.false_ne_true
      rw [if_neg hcne, hch]
      rfl
  rw [hq]
  show quoteBlock censor (quoteOrPlaceholder []) ++ "\n".data = _
  have hpl : quoteOrPlaceholder [] = "(no comment)".data := rfl
  rw [hpl]

theorem specSlugCore_eq (u : Str) : specSlugCore u = u.filterMap slugRepl := by
  induction u with
  | nil => rfl
  | cons c cs ih =>
    show specSlugChar c ++ specSlugCore cs = _
    rw [List.filterMap_cons, ih]
    unfold specSlugChar slugRepl
    by_cases h1 : (('a' ≤ c && c ≤ 'z') || ('0' ≤ c && c ≤ '9')) = true
    · rw [if_pos h1, if_pos h1]
      rfl
    · rw [if_neg h1, if_neg h1]
      by_cases h2 : (c == ' ' || c == '-' || c == '/' || c == '\\') = true
      · rw [if_pos h2, if_pos h2]
        rfl
      · rw [if_neg h2, if_neg h2]
        rfl

theorem toSlug_eq_specSlug (s : Str) : toSlug s = specSlug s := by
  unfold toSlug specSlug
  rw [specSlugCore_eq]

theorem goFieldsAux_ne_nil (s : Str) (cur : Str) :
    ∀ w ∈ goFieldsAux cur s, w ≠ [] := by
  induction s generalizing cur with
  | nil =>
    intro w hw
    unfold goFieldsAux at hw
    by_cases hc : cur.isEmpty = true
    · rw [if_pos hc] at hw
      cases hw
    · rw [if_neg hc] at hw
      rw [List.mem_singleton] at hw
      subst hw
      intro hrev
      apply hc
      rw [List.reverse_eq_nil_iff] at hrev
      rw [hrev]
      rfl
  | cons c rest ih =>
    intro w hw
    unfold goFieldsAux at hw
    by_cases hsp : goIsSpace c = true
    · rw [if_pos hsp] at hw
      by_cases hc : cur.isEmpty = true
      · rw [if_pos hc] at hw
        exact ih [] w hw
      · rw [if_neg hc] at hw
        rcases List.mem_cons.mp hw with rfl | hw2
        · intro hrev
          apply hc
          rw [List.reverse_eq_nil_iff] at hrev
          rw [hrev]
          rfl
        · exact ih [] w hw2
    · rw [if_neg hsp] at hw
      exact ih (c :: cur) w hw

theorem outputFileName_eq_spec (u c : Str) :
    outputFileName u c = specFileName u c := by
  unfold outputFileName specFileName
  cases hp : goFields u with
  | nil =>
    dsimp only
    rw [if_pos rfl, toSlug_eq_specSlug, toSlug_eq_specSlug, toSlug_eq_specSlug]
    norm_num
  | cons p ps =>
    dsimp only
    have hpne : p ≠ [] := by
      apply goFieldsAux_ne_nil u []
      rw [show goFieldsAux [] u = goFields u from rfl, hp]
      exact List.mem_cons_self _ _
    rw [if_neg hpne, toSlug_eq_specSlug, toSlug_eq_specSlug, toSlug_eq_specSlug]
    cases ps with
    | nil => norm_num
    | cons b bs =>
      have hgt : (p :: b :: bs).length > 1 := by
        simp only [List.length_cons]
        omega
      have hlt : ¬ ((p :: b :: bs).length < 2) := by
        simp only [List.length_cons]
        omega
      rw [if_pos hgt, if_neg hlt]

/-- Claim C1, counterexample: the sanitizer is not idempotent as claimed —
for the input whose decoded form still contains an entity, a second
sanitize pass decodes again: sanitizing the already-sanitized text of
an ampersand-entity input changes it once more. -/
theorem C1_counterexample :
    sanitizeText (sanitizeText "&#38;#38;".data) ≠ sanitizeText "&#38;#38;".data := by
  decide

/-- Claim C1, amended: sanitizeText is idempotent on every input whose
sanitized output is a fixed point of HTML entity unescaping (equivalently,
whose output no longer contains a decodable entity); the repeated entity
decode is the only source of non-idempotence. -/
theorem C1_sanitize_idempotent (x : Str)
    (h : htmlUnescape (sanitizeText x) = sanitizeText x) :
    sanitizeText (sanitizeText x) = sanitizeText x :=
  sanitizeText_idemAux x h

/-- Witness for C1 at a concrete entity-free input. -/
theorem C1_witness :
    htmlUnescape (sanitizeText "a<br>b".data) = sanitizeText "a<br>b".data ∧
    sanitizeText (sanitizeText "a<br>b".data) = sanitizeText "a<br>b".data :=
  ⟨by decide, C1_sanitize_idempotent "a<br>b".data (by decide)⟩

/-- Claim C2: the question order of each rendered section (the renderer
iterates exactly the classifier's recorded order lists) equals the
first-occurrence order of the question IDs in fetched order — for the self
bucket over all self records, for the peer bucket over the records passing
the content filter — and in particular self records with question IDs in
fetch order Q2, Q1, Q2, Q3 yield the order Q2, Q1, Q3. -/
theorem C2_question_order :
    (∀ rs : List Review,
      (classify rs).qOrderSelf =
        firstOccurrences ((rs.filter isSelfReview).map (fun r => r.questionId)) ∧
      (classify rs).qOrderPeer =
        firstOccurrences
          ((rs.filter (fun r => !isSelfReview r && peerKept r)).map
            (fun r => r.questionId))) ∧
    (classify [sampleSelfQ "Q2", sampleSelfQ "Q1", sampleSelfQ "Q2",
      sampleSelfQ "Q3"]).qOrderSelf = ["Q2".data, "Q1".data, "Q3".data] := by
  refine ⟨fun rs => ⟨classify_qOrderSelf rs, classify_qOrderPeer rs⟩, ?_⟩
  decide

/-- Claim C3: the peer bucket keeps exactly the non-self records whose
response is present with some content — trimmed comment non-empty, or
choices non-empty, or a numeric rating, or a rating label; a record with an
absent response is always dropped.  The concrete conjuncts check the two
instances from the spec. -/
theorem C3_content_filter :
    (∀ (rs : List Review) (q : Str),
      (classify rs).peerByQ q =
        rs.filter (fun r => !isSelfReview r && peerKept r && r.questionId == q)) ∧
    (∀ r : Review, peerKept r = true ↔ specKeep r) ∧
    peerKept samplePeerEmpty = false ∧
    peerKept samplePeerChoices = true := by
  refine ⟨classify_peerByQ, ?_, by decide, by decide⟩
  intro r
  unfold peerKept specKeep hasContent
  cases hresp : r.response with
  | none => simp
  | some resp =>
    cases hcm : resp.comment with
    | none =>
      simp [hcm, List.isEmpty_iff, Option.isSome_iff_exists]
      tauto
    | some c =>
      simp [hcm, List.isEmpty_iff, Option.isSome_iff_exists]
      tauto

/-- Claim C4: every record whose review type is case-insensitively "self"
is classified into the self bucket regardless of content — the content
filter never applies, even for an absent response — and a self record with
no usable text renders as the placeholder quote. -/
theorem C4_self_always_participates :
    (∀ (rs : List Review) (q : Str),
      (classify rs).selfByQ q =
        rs.filter (fun r => isSelfReview r && r.questionId == q)) ∧
    (∀ (censor : Bool) (r : Review),
      (r.response = none ∨ ∃ resp, r.response = some resp ∧
        (resp.comment = none ∨ ∃ c, resp.comment = some c ∧ goTrimSpace c = []) ∧
        resp.choices = []) →
      renderSelfReview censor r =
        quoteBlock censor "(no comment)".data ++ "\n".data) ∧
    (classify [sampleSelfAbsent]).selfByQ "Q1".data = [sampleSelfAbsent] ∧
    renderSelfReview false sampleSelfAbsent = "> (no comment)\n\n".data := by
  refine ⟨classify_selfByQ, renderSelfReview_noText, by decide, by decide⟩

/-- Witness for C4's conditional conjunct at a whitespace-comment record. -/
theorem C4_witness :
    renderSelfReview false sampleSelfWS = "> (no comment)\n\n".data := by
  have h := C4_self_always_participates.2.1 false sampleSelfWS
    (Or.inr ⟨⟨some "  ".data, [], none, none⟩, rfl,
      Or.inr ⟨"  ".data, rfl, by decide⟩, rfl⟩)
  rw [h]
  decide

/-- Claim C5: masking with censor off is the identity; with censor on it
preserves length and maps every position to itself when the rune is
whitespace and to the placeholder glyph otherwise; the concrete conjunct
checks the spec example. -/
theorem C5_mask :
    (∀ x : Str, mask false x = x) ∧
    (∀ (x : Str) (i : Nat), (mask true x).get? i = (x.get? i).map maskChar) ∧
    mask true "Jane Doe: great job\n".data = "▒▒▒▒ ▒▒▒▒ ▒▒▒▒▒ ▒▒▒\n".data := by
  refine ⟨fun x => rfl, ?_, by decide⟩
  intro x i
  show (maskRun x).get? i = _
  rw [maskRun_eq_map, List.get?_map]

/-- Claim C6: the output filename is exactly the spec's slug pipeline
(whitespace tokenization with first/last extraction and fallback,
independent slugification, underscore join, fixed extension), and the
spec's concrete example holds. -/
theorem C6_outputFileName :
    (∀ u c : Str, outputFileName u c = specFileName u c) ∧
    outputFileName "Jane Q. Doe".data "Q3 2024 Review".data =
      "jane_doe_q3_2024_review.md".data := by
  refine ⟨outputFileName_eq_spec, by decide⟩

/-- Claim C7: the stage-2 cycle filter never fails as a whole — it returns
success for every fetch function — and keeps exactly the cycles whose
reviewee fetch succeeds with a reviewee matching the selected user,
dropping erroring cycles and non-matching cycles silently; the concrete
conjunct exercises one erroring, one non-matching and one matching cycle. -/
theorem C7_cycle_filtering :
    (∀ (fetch : Str → Except Str (List RevieweeRec)) (uid : Str)
      (cycles : List ReviewCycle),
      filterCyclesStage fetch uid cycles =
        Except.ok (cycles.filterMap (eligibleEntry fetch uid))) ∧
    filterCyclesStage sampleFetch "u1".data
      [sampleCycleA, sampleCycleB, sampleCycleC] =
      Except.ok [⟨"C".data, "rc".data, sampleCycleC⟩] := by
  constructor
  · intro fetch uid cycles
    unfold filterCyclesStage
    rw [filterCycles_eq]
  · rfl

/-- Claim C8: the rendered document is a function of the classification
result, the lookup results, the names and the censor flag alone — two
invocations whose inputs classify identically and whose lookups agree
pointwise produce byte-identical documents (no map-iteration order can
influence the output, which is driven by the recorded order lists). -/
theorem C8_renderer_determinism (qL qL' : Str → Option Question)
    (uL uL' : Str → Option ReviewUser) (un cn : Str) (rs rs' : List Review)
    (censor : Bool) (hcls : classify rs = classify rs')
    (hq : ∀ q, qL q = qL' q) (hu : ∀ u, uL u = uL' u) :
    buildMarkdown qL uL un cn rs censor = buildMarkdown qL' uL' un cn rs' censor := by
  have hqf : qL = qL' := funext hq
  have huf : uL = uL' := funext hu
  unfold buildMarkdown
  rw [hcls, hqf, huf]

/-- Witness for C8 at concrete equal inputs. -/
theorem C8_witness :
    buildMarkdown (fun _ => none) (fun _ => none) "A".data "B".data
      [sampleSelfQ "Q1"] false =
    buildMarkdown (fun _ => none) (fun _ => none) "A".data "B".data
      [sampleSelfQ "Q1"] false :=
  C8_renderer_determinism _ _ _ _ _ _ _ _ false rfl (fun _ => rfl) (fun _ => rfl)

/-- Claim C9, counterexample: the masked placeholder contains eleven
placeholder glyphs, not twelve — the placeholder text has eleven non-space
runes (plus one preserved interior space). -/
theorem C9_counterexample :
    (mask true "(no comment)".data).count '▒' = 11 ∧
    ¬ ((mask true "(no comment)".data).count '▒' = 12) := by
  decide

/-- Claim C9, amended: when the computed quote is blank, both sections pass
the placeholder itself through the mask before emitting the quote line, so
with censor on the emitted line is the quote marker followed by the masked
placeholder — its eleven non-space runes replaced by the glyph, the single
interior space preserved — never the literal placeholder text. -/
theorem C9_placeholder_masked :
    (∀ (censor : Bool) (q : Str), goTrimSpace q = [] →
      quoteBlock censor (quoteOrPlaceholder q) =
        "> ".data ++ mask censor "(no comment)".data ++ "\n".data) ∧
    mask true "(no comment)".data = "▒▒▒ ▒▒▒▒▒▒▒▒".data ∧
    renderSelfReview true sampleSelfAbsent = "> ▒▒▒ ▒▒▒▒▒▒▒▒\n\n".data ∧
    renderPeerReview (fun _ => none) true samplePeerLabel =
      "▒▒▒▒▒▒▒ (score: ▒▒▒▒▒):\n\n> ▒▒▒ ▒▒▒▒▒▒▒▒\n\n".data := by
  refine ⟨quoteBlock_placeholder, by decide, by decide, by decide⟩

/-- Witness for C9's conditional conjunct at a whitespace-only quote. -/
theorem C9_witness :
    quoteBlock true (quoteOrPlaceholder " ".data) =
      "> ".data ++ mask true "(no comment)".data ++ "\n".data :=
  C9_placeholder_masked.1 true " ".data (by decide)

/-- Claim C10, counterexample: the two sanitizeText copies differ — the
cmd/tess.go copy collapses a run of blank lines to one, the part_000 copy
does not. -/
theorem C10_counterexample :
    sanitizeText "a\n\n\nb".data ≠ sanitizeText0 "a\n\n\nb".data := by
  decide

/-- Claim C10, amended: the two copies agree on every input whose
intermediate line list (after entity decoding, tag handling and per-line
right-trimming) has no two adjacent blank lines; they differ exactly on
blank-line runs, which only the cmd/tess.go copy collapses. -/
theorem C10_copies_agree (s : Str)
    (h : noTwoBlank ((splitNL (sanitizeCore s)).map goTrimRightST) = true) :
    sanitizeText s = sanitizeText0 s :=
  linePass_agree s h

/-- Witness for C10 at a concrete input without blank-line runs. -/
theorem C10_witness :
    noTwoBlank ((splitNL (sanitizeCore "a\nb".data)).map goTrimRightST) = true ∧
    sanitizeText "a\nb".data = sanitizeText0 "a\nb".data :=
  ⟨by decide, C10_copies_agree "a\nb".data (by decide)⟩
